import Mathlib

/-!
# Verification of the tailwind-modifier-groups class engine

A shallow embedding of the class-parsing / grouping / sorting / rewrite
engine from `src/utils/class-parser.ts`, `class-grouper.ts`, `class-sorter.ts`,
`fix-generator.ts`, `constants/index.ts` and the dispatch logic of
`rules/group-tailwind-modifiers.ts`, together with proofs of the spec claims.

Modelling conventions:
- JavaScript strings are Lean `String`, manipulated through their `List Char`
  data; character codes (`charCodeAt(0)`) are `Char.toNat` (identical on the
  BMP characters that occur in class names).
- `String.prototype.localeCompare` is modelled as a character-wise
  lexicographic three-way comparison returning -1/0/1 (a strict total order,
  which is all the engine relies on).
- JavaScript `Map` (insertion-ordered) is an association list to which keys
  are appended on first insertion; `Set<number>` is a duplicate-free `List Nat`.
- `Array.prototype.sort` (stable) is `List.insertionSort` with the
  "comparator result ≤ 0" relation, which performs the same stable sort.
- Regular-expression `test` calls are hand-translated character scanners
  (the patterns involved are anchored and use character classes that exclude
  the delimiter, so greedy scanning is exact).
-/

/-- JavaScript `\s` whitespace (the characters relevant to class strings). -/
def isWsChar (c : Char) : Bool :=
  c = ' ' ∨ c = '\t' ∨ c = '\n' ∨ c = '\r' ∨ c = '\x0b' ∨ c = '\x0c'

/-- Accumulator pass of `classString.trim().split(/\s+/).filter(Boolean)`:
splits a character list into the maximal runs of non-whitespace characters. -/
def splitWsAux : List Char → List Char → List (List Char)
  | [], acc => if acc = [] then [] else [acc.reverse]
  | c :: rest, acc =>
    if isWsChar c then
      if acc = [] then splitWsAux rest [] else acc.reverse :: splitWsAux rest []
    else splitWsAux rest (c :: acc)

/-- Whitespace tokenization of a class string, as performed by `parseClasses`:
trim, split on runs of whitespace, discard empty fragments. -/
def splitWhitespace (s : String) : List String :=
  (splitWsAux s.data []).map String.mk

/-- `ParsedClass` from `src/types`: original text, modifier prefix (up to and
including the rightmost colon, `null` if none), and the remaining base. -/
structure ParsedClass where
  full : String
  modifier : Option String
  base : String
deriving DecidableEq, Repr

/-- Split a character list at its rightmost colon: `some (m, b)` with the
colon included at the end of `m`, or `none` when no colon occurs.
Embeds `className.lastIndexOf(":")` and the two slices of `parseClass`. -/
def splitLastColon : List Char → Option (List Char × List Char)
  | [] => none
  | c :: rest =>
    match splitLastColon rest with
    | some (m, b) => some (c :: m, b)
    | none => if c = ':' then some ([':'], rest) else none

/-- `parseClass` from `class-parser.ts`: split a single class name into
modifier and base at the rightmost colon. -/
def parseClass (className : String) : ParsedClass :=
  match splitLastColon className.data with
  | none => ⟨className, none, className⟩
  | some (m, b) => ⟨className, some (String.mk m), String.mk b⟩

/-- `parseClasses` from `class-parser.ts`: tokenize on whitespace and parse
each token (empty / whitespace-only input yields the empty list). -/
def parseClasses (classString : String) : List ParsedClass :=
  (splitWhitespace classString).map parseClass

/-- One step of the insertion-ordered `Map<string|null, string[]>` used by
`groupClassesByModifier`: append `c` to the entry for `key`, creating the
entry at the end if absent. -/
def insertGrouped (key : Option String) (c : String) :
    List (Option String × List String) → List (Option String × List String)
  | [] => [(key, [c])]
  | (k, cs) :: rest =>
    if k = key then (k, cs ++ [c]) :: rest else (k, cs) :: insertGrouped key c rest

/-- The loop body of `groupClassesByModifier`: file the class under its
parsed modifier. -/
def groupStep (acc : List (Option String × List String)) (c : String) :
    List (Option String × List String) :=
  insertGrouped (parseClass c).modifier c acc

/-- `groupClassesByModifier` from `class-grouper.ts`: partition class names
by their parsed modifier, preserving first-seen key order. -/
def groupClassesByModifier (classes : List String) :
    List (Option String × List String) :=
  classes.foldl groupStep []

/-- `ModifierGroup` from `src/types`. -/
structure ModifierGroup where
  modifier : Option String
  classes : List String
deriving DecidableEq, Repr

/-- `createModifierGroups` from `class-grouper.ts`: the same insertion-ordered
partition, taken over already-parsed classes and returned as groups. -/
def createModifierGroups (parsedClasses : List ParsedClass) : List ModifierGroup :=
  (parsedClasses.foldl (fun acc p => insertGrouped p.modifier p.full acc) []).map
    (fun p => ⟨p.1, p.2⟩)

/-- `groupClassString` from `class-grouper.ts`. -/
def groupClassString (classString : String) : List ModifierGroup :=
  createModifierGroups (parseClasses classString)

/-- `hasMultipleModifierGroups` from `class-grouper.ts`. -/
def hasMultipleModifierGroups (classString : String) : Bool :=
  (groupClassString classString).length > 1

/-- `mixesBaseAndModifiers` from `class-grouper.ts`. -/
def mixesBaseAndModifiers (classString : String) : Bool :=
  let groups := groupClassString classString
  groups.any (fun g => g.modifier = none) && groups.any (fun g => g.modifier ≠ none)

/-- Add slot index `i` to the `Set<number>` of sources recorded for modifier
`m`, in the insertion-ordered `Map` built by `hasSplitModifiers`. -/
def addSource (m : Option String) (i : Nat) :
    List (Option String × List Nat) → List (Option String × List Nat)
  | [] => [(m, [i])]
  | (k, s) :: rest =>
    if k = m then (k, if i ∈ s then s else s ++ [i]) :: rest
    else (k, s) :: addSource m i rest

/-- The `modifierToSources` map of `hasSplitModifiers`: for every class string
slot (indexed from 0), record the slot index against every modifier key of
that slot's grouping.  NOTE: the source does not exclude the `null` key here. -/
def buildModifierSources (classStrings : List String) :
    List (Option String × List Nat) :=
  classStrings.enum.foldl
    (fun acc p =>
      ((groupClassString p.2).map (fun g => g.modifier)).foldl
        (fun acc m => addSource m p.1 acc) acc)
    []

/-- `hasSplitModifiers` from `class-grouper.ts`: true when any modifier key
(including `null`) was contributed by more than one slot. -/
def hasSplitModifiers (classStrings : List String) : Bool :=
  (buildModifierSources classStrings).any (fun p => p.2.length > 1)

/-- The recorded source list of a modifier in the `modifierToSources` map
(`[]` when the key is absent). -/
def lookupSources (m : Option String) :
    List (Option String × List Nat) → List Nat
  | [] => []
  | (k, s) :: rest => if k = m then s else lookupSources m rest

/-- The modifier keys of one slot's grouping (the "group set" of a slot). -/
def slotMods (s : String) : List (Option String) :=
  (groupClassString s).map (fun g => g.modifier)

/-! ## Priority table (`constants/index.ts`) -/

/-- `RESPONSIVE_BREAKPOINTS`. -/
def RESPONSIVE_BREAKPOINTS : List String := ["sm", "md", "lg", "xl", "2xl"]

/-- `PSEUDO_CLASS_VARIANTS` (Tailwind order: focus before hover). -/
def PSEUDO_CLASS_VARIANTS : List String :=
  ["focus", "focus-within", "focus-visible", "hover", "active", "visited",
   "target", "disabled", "enabled", "checked", "indeterminate", "default",
   "required", "optional", "placeholder-shown", "autofill", "read-only",
   "read-write", "empty", "only", "first", "last", "odd", "even"]

/-- `GROUP_PEER_VARIANTS`. -/
def GROUP_PEER_VARIANTS : List String := ["group", "peer"]

/-- `HAS_VARIANTS`. -/
def HAS_VARIANTS : List String := ["has"]

/-- `SUPPORTS_VARIANTS`. -/
def SUPPORTS_VARIANTS : List String := ["supports"]

/-- `KNOWN_VARIANT_ORDER`: the concatenated known ordering list. -/
def KNOWN_VARIANT_ORDER : List String :=
  [""] ++ PSEUDO_CLASS_VARIANTS ++ GROUP_PEER_VARIANTS ++ HAS_VARIANTS ++
    SUPPORTS_VARIANTS ++ RESPONSIVE_BREAKPOINTS ++ ["dark"] ++
    ["aria-checked", "aria-disabled", "aria-expanded", "aria-hidden",
     "aria-invalid", "aria-pressed", "aria-readonly", "aria-required",
     "aria-selected"] ++ ["data-"]

/-- The character class `[a-z-]` used by the aria/data/group/peer/has/supports
patterns. -/
def isLowerDash (c : Char) : Bool := ('a' ≤ c ∧ c ≤ 'z') ∨ c = '-'

/-- Scan for an occurrence of the two-character sequence `]:`. -/
def containsCloseColon : List Char → Bool
  | ']' :: ':' :: _ => true
  | _ :: rest => containsCloseColon rest
  | [] => false

/-- `/^\[.+\]:/.test m`: an opening bracket, at least one further character,
then `]:` somewhere after it. -/
def testARBITRARY (m : String) : Bool :=
  match m.data with
  | '[' :: _ :: rest => containsCloseColon rest
  | _ => false

/-- After a fixed literal head, match `[a-z-]+` followed by `:` (the colon is
not in the class, so the greedy maximal run is exact). -/
def runThenColon (l : List Char) : Bool :=
  let run := l.takeWhile isLowerDash
  decide (run.length ≥ 1) && (match l.drop run.length with
    | ':' :: _ => true
    | _ => false)

/-- After a fixed literal head, match `([a-z-]+)?` followed by `:` (run may be
empty). -/
def optRunThenColon (l : List Char) : Bool :=
  let run := l.takeWhile isLowerDash
  match l.drop run.length with
  | ':' :: _ => true
  | _ => false

/-- `/^aria-[a-z-]+:/.test m`. -/
def testARIA (m : String) : Bool :=
  "aria-".data.isPrefixOf m.data && runThenColon (m.data.drop 5)

/-- `/^data-[a-z-]+:/.test m`. -/
def testDATA (m : String) : Bool :=
  "data-".data.isPrefixOf m.data && runThenColon (m.data.drop 5)

/-- `/^dark:/.test m`. -/
def testDARK (m : String) : Bool :=
  "dark:".data.isPrefixOf m.data

/-- `/^(sm|md|lg|xl|2xl):/.test m`. -/
def testRESPONSIVE (m : String) : Bool :=
  RESPONSIVE_BREAKPOINTS.any (fun b => (b.data ++ [':']).isPrefixOf m.data)

/-- `/^(focus|…|even):/.test m`. -/
def testPSEUDO_CLASS (m : String) : Bool :=
  PSEUDO_CLASS_VARIANTS.any (fun b => (b.data ++ [':']).isPrefixOf m.data)

/-- `/^(group|peer)(-[a-z-]+)?:/.test m`. -/
def testGROUP_PEER (m : String) : Bool :=
  GROUP_PEER_VARIANTS.any (fun g =>
    g.data.isPrefixOf m.data &&
      (match m.data.drop g.length with
       | ':' :: _ => true
       | '-' :: r => runThenColon r
       | _ => false))

/-- `/^has-([a-z-]+)?:/.test m`. -/
def testHAS (m : String) : Bool :=
  "has-".data.isPrefixOf m.data && optRunThenColon (m.data.drop 4)

/-- `/^supports-([a-z-]+)?:/.test m`. -/
def testSUPPORTS (m : String) : Bool :=
  "supports-".data.isPrefixOf m.data && optRunThenColon (m.data.drop 9)

/-- Split a character list at every colon (JavaScript `m.split(":")`). -/
def splitColonAux : List Char → List Char → List (List Char)
  | [], acc => [acc.reverse]
  | c :: rest, acc =>
    if c = ':' then acc.reverse :: splitColonAux rest []
    else splitColonAux rest (c :: acc)

/-- `m.split(":")` as strings. -/
def splitColon (m : String) : List String :=
  (splitColonAux m.data []).map String.mk

/-- The fall-through tail of `getModifierPriority` (`class-sorter.ts`):
the checks performed after the arbitrary and chained checks have failed. -/
def getModifierPriorityTail (m : String) : Nat :=
  if testDARK m then 4 -- DARK
  else if testARIA m || testDATA m then 5 -- ARIA_DATA
  else if testRESPONSIVE m then 2 -- RESPONSIVE
  else if testGROUP_PEER m then 1 -- PSEUDO_CLASS (group/peer fold in)
  else if testHAS m then 1 -- PSEUDO_CLASS (has folds in)
  else if testSUPPORTS m then 1 -- PSEUDO_CLASS (supports folds in)
  else if testPSEUDO_CLASS m then 1 -- PSEUDO_CLASS
  else 7 -- UNKNOWN

/-- `getModifierPriority` from `class-sorter.ts`, with the `ModifierPriority`
enum inlined as its numeric values
(BASE 0, PSEUDO_CLASS 1, RESPONSIVE 2, CHAINED 3, DARK 4, ARIA_DATA 5,
ARBITRARY 6, UNKNOWN 7). -/
def getModifierPriority (modifier : Option String) : Nat :=
  match modifier with
  | none => 0 -- BASE
  | some m =>
    if testARBITRARY m then 6 -- ARBITRARY
    else
      let colonCount := m.data.countP (fun c => c = ':')
      if colonCount > 1 then
        let parts := (splitColon m).filter (fun p => p ≠ "")
        let hasResponsive := parts.any (fun p => testRESPONSIVE (p ++ ":"))
        let hasPseudoClass := parts.any (fun p => testPSEUDO_CLASS (p ++ ":"))
        if hasResponsive && hasPseudoClass then 3 -- CHAINED
        else getModifierPriorityTail m
      else getModifierPriorityTail m

/-- `KNOWN_VARIANT_ORDER.indexOf x`, as an `Option Nat` (`none` for -1). -/
def listIndexOf : List String → String → Option Nat
  | [], _ => none
  | y :: rest, x => if y = x then some 0 else (listIndexOf rest x).map (· + 1)

/-- `charCodeAt(0)` of a (nonempty) string, as a natural number. -/
def charCodeAt0 (s : String) : Nat := (s.data.headD 'a').toNat

/-- `getModifierSortOrder` from `class-sorter.ts`. -/
def getModifierSortOrder (modifier : Option String) : Nat :=
  match modifier with
  | none => 0
  | some m =>
    if m.data.length = 0 then 0
    else
      let modifierWithoutColon := String.mk m.data.dropLast
      if modifierWithoutColon.data.length = 0 then 0
      else
        match listIndexOf KNOWN_VARIANT_ORDER modifierWithoutColon with
        | some knownIndex => knownIndex
        | none =>
          if m.data.contains ':' then
            let firstPart := String.mk (m.data.takeWhile (fun c => c ≠ ':'))
            match listIndexOf KNOWN_VARIANT_ORDER firstPart with
            | some firstPartIndex => firstPartIndex + 1000
            | none => 10000 + charCodeAt0 modifierWithoutColon
          else 10000 + charCodeAt0 modifierWithoutColon

/-- Three-way character-wise comparison of character lists; models the sign of
`String.prototype.localeCompare` (see the modelling notes above). -/
def cmpCharList : List Char → List Char → Int
  | [], [] => 0
  | [], _ :: _ => -1
  | _ :: _, [] => 1
  | a :: as, b :: bs => if a < b then -1 else if b < a then 1 else cmpCharList as bs

/-- `a.localeCompare b`, modelled as a -1/0/1 lexicographic comparison. -/
def localeCompare (a b : String) : Int := cmpCharList a.data b.data

/-- `compareModifiers` from `class-sorter.ts`: priority difference, then sort
order difference, then text comparison with `null` read as the empty string. -/
def compareModifiers (a b : Option String) : Int :=
  let priorityA := getModifierPriority a
  let priorityB := getModifierPriority b
  if priorityA ≠ priorityB then (priorityA : Int) - priorityB
  else
    let orderA := getModifierSortOrder a
    let orderB := getModifierSortOrder b
    if orderA ≠ orderB then (orderA : Int) - orderB
    else localeCompare (a.getD "") (b.getD "")

/-- The "comparator result ≤ 0" relation on strings used by
`sortClassesInGroup`'s stable `Array.sort`. -/
def strLe (a b : String) : Prop := localeCompare a b ≤ 0

instance : DecidableRel strLe := fun _ _ => inferInstanceAs (Decidable (_ ≤ _))

/-- `sortClassesInGroup` from `class-sorter.ts`:
`[...classes].sort((a, b) => a.localeCompare(b))` (stable). -/
def sortClassesInGroup (classes : List String) : List String :=
  List.insertionSort strLe classes

/-- The "comparator result ≤ 0" relation on groups used by
`sortModifierGroups`'s stable `Array.sort`. -/
def groupLe (a b : ModifierGroup) : Prop :=
  compareModifiers a.modifier b.modifier ≤ 0

instance : DecidableRel groupLe := fun _ _ => inferInstanceAs (Decidable (_ ≤ _))

/-- `sortModifierGroups` from `class-sorter.ts`:
`[...groups].sort((a, b) => compareModifiers(a.modifier, b.modifier))`. -/
def sortModifierGroups (groups : List ModifierGroup) : List ModifierGroup :=
  List.insertionSort groupLe groups

/-- `sortClassesByModifierGroups` from `class-sorter.ts`: group by modifier,
sort the classes inside each group, then sort the groups. -/
def sortClassesByModifierGroups (classes : List String) : List ModifierGroup :=
  sortModifierGroups
    ((groupClassesByModifier classes).map (fun p => ⟨p.1, sortClassesInGroup p.2⟩))

/-! ## Fix generation (`fix-generator.ts`) and rule dispatch
(`rules/group-tailwind-modifiers.ts`) -/

/-- `ArgumentInfo` from `ast-traverser.ts`, with the AST node abstracted to
its source text (used verbatim for non-string arguments).  `classString` is
`some` exactly for string-literal arguments. -/
structure ArgumentInfo where
  isStringLiteral : Bool
  classString : Option String
  text : String
deriving DecidableEq, Repr

/-- One argument of the rewritten call produced by `generateFunctionCallFix`:
either a (re-grouped) string literal, carried by value — the generator
serializes it in quotes with interior quotes escaped — or the preserved
source text of a non-string argument. -/
inductive FixArg where
  | str (s : String)
  | expr (t : String)
deriving DecidableEq, Repr

/-- `classes.join(" ")`. -/
def joinSpace : List String → String
  | [] => ""
  | [c] => c
  | c :: rest => c ++ " " ++ joinSpace rest

/-- The truthiness test `info.isStringLiteral && info.classString` used by
the generator and the rule: a string-literal argument with non-empty text. -/
def isTruthyStringArg (info : ArgumentInfo) : Bool :=
  info.isStringLiteral && info.classString.getD "" ≠ ""

/-- The argument-assembly loop of `generateFunctionCallFix`: every original
string-literal argument is skipped, with all new string arguments inserted
at the position of the first one; non-string arguments are preserved in
place; if no string argument existed the new strings go at the end. -/
def buildAllArguments (newStrs : List String) :
    List ArgumentInfo → Bool → List FixArg
  | [], hasAddedNewStrings =>
    if !hasAddedNewStrings && newStrs.length > 0 then newStrs.map FixArg.str else []
  | info :: rest, hasAddedNewStrings =>
    if info.isStringLiteral then
      if !hasAddedNewStrings then
        newStrs.map FixArg.str ++ buildAllArguments newStrs rest true
      else buildAllArguments newStrs rest true
    else FixArg.expr info.text :: buildAllArguments newStrs rest hasAddedNewStrings

/-- The `allClasses` accumulation loop of `generateFunctionCallFix`: the
class tokens of every (truthy) string-literal argument, in order. -/
def collectAllClasses (argumentInfo : List ArgumentInfo) : List String :=
  argumentInfo.foldl
    (fun acc info =>
      if isTruthyStringArg info then
        acc ++ (parseClasses (info.classString.getD "")).map (fun p => p.full)
      else acc) []

/-- The `newStringArguments` loop of `generateFunctionCallFix`: one
space-joined string per non-empty group, skipping empty serializations. -/
def newStringArgumentsOf (groups : List ModifierGroup) : List String :=
  groups.foldl
    (fun acc group =>
      if group.classes = [] then acc
      else
        let groupString := joinSpace (sortClassesInGroup group.classes)
        if groupString = "" then acc else acc ++ [groupString]) []

/-- The `originalStringArgs` extraction of `generateFunctionCallFix`. -/
def originalStringArgsOf (argumentInfo : List ArgumentInfo) : List String :=
  (argumentInfo.filter isTruthyStringArg).map (fun i => i.classString.getD "")

/-- `generateFunctionCallFix` from `fix-generator.ts`, at the level of the
argument list: collect the classes of all (truthy) string-literal arguments,
regroup and sort them, serialize one new string argument per group, and
reassemble the argument list; `none` models the `null` "no fix" result
(empty input, no groups, no new arguments, or output identical to input).
The JavaScript local variables `allClasses`, `newStringArguments` and
`originalStringArgs` are the named definitions above.  The host-level
concerns (source ranges, quoting) are the shim's. -/
def generateFunctionCallFix (argumentInfo : List ArgumentInfo) :
    Option (List FixArg) :=
  if collectAllClasses argumentInfo = [] then none
  else if sortClassesByModifierGroups (collectAllClasses argumentInfo) = [] then
    none
  else if newStringArgumentsOf
      (sortClassesByModifierGroups (collectAllClasses argumentInfo)) = [] then
    none
  else if newStringArgumentsOf
      (sortClassesByModifierGroups (collectAllClasses argumentInfo)) =
      originalStringArgsOf argumentInfo then
    none
  else
    some (buildAllArguments
      (newStringArgumentsOf
        (sortClassesByModifierGroups (collectAllClasses argumentInfo)))
      argumentInfo false)

/-- The violation verdict reported by `handleStandardFunctionCall` (the
`messageId`, with the reported argument index for the per-slot messages). -/
inductive Verdict where
  | noViolation
  | splitModifier
  | mixedBaseAndModifiers (i : Nat)
  | multipleModifierGroups (i : Nat)
deriving DecidableEq, Repr

/-- The per-argument loop of `handleStandardFunctionCall`: skip non-string
arguments; report the first argument that mixes base and modifiers or, only
failing that check on the same argument, has multiple modifier groups. -/
def checkArgsLoop : List (Nat × ArgumentInfo) → Verdict
  | [] => Verdict.noViolation
  | (i, info) :: rest =>
    if isTruthyStringArg info then
      let classString := info.classString.getD ""
      if mixesBaseAndModifiers classString then Verdict.mixedBaseAndModifiers i
      else if hasMultipleModifierGroups classString then
        Verdict.multipleModifierGroups i
      else checkArgsLoop rest
    else checkArgsLoop rest

/-- The string-literal argument contents of a call, in order (the `classStrings`
extraction of `handleStandardFunctionCall`). -/
def classStringsOf (argumentInfo : List ArgumentInfo) : List String :=
  (argumentInfo.filter isTruthyStringArg).map (fun i => i.classString.getD "")

/-- `handleStandardFunctionCall` from `rules/group-tailwind-modifiers.ts`,
reduced to the verdict it reports: the cross-slot split-modifier check first
(short-circuiting), then the per-argument loop. -/
def handleStandardFunctionCall (argumentInfo : List ArgumentInfo) : Verdict :=
  let classStrings := classStringsOf argumentInfo
  if classStrings = [] then Verdict.noViolation
  else if hasSplitModifiers classStrings then Verdict.splitModifier
  else checkArgsLoop argumentInfo.enum

/-- The quoted-string scanner of `verifyFixNonDestructive`: successive
non-overlapping matches of `/["']([^"']+)["']/g`, each yielding the quoted
content.  The state carries the content accumulated since an opening quote
(in reverse), or `none` outside a candidate match. -/
def scanQuoted : List Char → Option (List Char) → List String
  | [], _ => []
  | c :: rest, none =>
    if c = '"' ∨ c = '\x27' then scanQuoted rest (some [])
    else scanQuoted rest none
  | c :: rest, some acc =>
    if c = '"' ∨ c = '\x27' then
      if acc = [] then scanQuoted rest (some [])
      else String.mk acc.reverse :: scanQuoted rest none
    else scanQuoted rest (some (c :: acc))

/-- All quoted fragments of the generated output code. -/
def extractQuoted (outputCode : String) : List String :=
  scanQuoted outputCode.data none

/-- The JavaScript `Set<string>` of `verifyFixNonDestructive`: append on
first insertion. -/
def setAdd (s : List String) (x : String) : List String :=
  if x ∈ s then s else s ++ [x]

/-- `verifyFixNonDestructive` from `fix-generator.ts`: collect the set of
parsed class names from the inputs and from the quoted fragments of the
output, and check mutual inclusion. -/
def verifyFixNonDestructive (inputClasses : List String) (outputCode : String) :
    Bool :=
  let inputClassSet := inputClasses.foldl
    (fun s classString =>
      (parseClasses classString).foldl (fun s p => setAdd s p.full) s) []
  let outputClassSet := (extractQuoted outputCode).foldl
    (fun s classString =>
      (parseClasses classString).foldl (fun s p => setAdd s p.full) s) []
  inputClassSet.all (fun className => className ∈ outputClassSet) &&
    outputClassSet.all (fun className => className ∈ inputClassSet)

example : parseClass "a:b:c" = ⟨"a:b:c", some "a:b:", "c"⟩ := by decide
example : parseClass "bg-red" = ⟨"bg-red", none, "bg-red"⟩ := by decide
example : parseClasses " hover:a  b " =
    [⟨"hover:a", some "hover:", "a"⟩, ⟨"b", none, "b"⟩] := by decide
example : getModifierPriority (some "hover:") = 1 := by decide
example : getModifierPriority (some "dark:") = 4 := by decide
example : getModifierPriority (some "md:hover:") = 3 := by decide
example : getModifierPriority (some "aria-checked:") = 5 := by decide
example : getModifierPriority (some "[&_svg]:") = 6 := by decide
example : getModifierPriority (some "md:") = 2 := by decide
example : getModifierPriority (some "group-hover:") = 1 := by decide
example : getModifierPriority (some "foo:") = 7 := by decide
example : getModifierSortOrder (some "hover:") = 4 := by decide
example : getModifierSortOrder (some "md:foo:") = 1030 := by decide
example : getModifierSortOrder (some "foo:") = 10000 + 102 := by decide
example : compareModifiers (some "dark:") (some "hover:") = 3 := by decide
example : hasSplitModifiers ["hover:bg-red", "hover:text-white"] = true := by decide
example : hasSplitModifiers ["hover:bg-red", "focus:ring-2"] = false := by decide
example : hasSplitModifiers ["a", "b"] = true := by decide
example : sortClassesByModifierGroups
      ["md:p-4", "hover:bg-blue", "bg-red", "hover:text-white", "focus:ring-2"] =
    [⟨none, ["bg-red"]⟩, ⟨some "focus:", ["focus:ring-2"]⟩,
     ⟨some "hover:", ["hover:bg-blue", "hover:text-white"]⟩,
     ⟨some "md:", ["md:p-4"]⟩] := by decide
example : generateFunctionCallFix
      [⟨true, some "bg-red hover:bg-blue", "q"⟩, ⟨false, none, "props.cls"⟩] =
    some [FixArg.str "bg-red", FixArg.str "hover:bg-blue", FixArg.expr "props.cls"] := by
  decide
example : generateFunctionCallFix [⟨true, some "bg-red", "q"⟩] = none := by decide
example : generateFunctionCallFix [⟨true, some "  ", "q"⟩, ⟨false, none, "x"⟩] =
    none := by decide
example : handleStandardFunctionCall
      [⟨true, some "hover:a", "q"⟩, ⟨true, some "hover:b", "q"⟩] =
    Verdict.splitModifier := by decide
example : handleStandardFunctionCall [⟨true, some "base hover:a focus:b", "q"⟩] =
    Verdict.mixedBaseAndModifiers 0 := by decide
example : handleStandardFunctionCall
      [⟨false, none, "e"⟩, ⟨true, some "hover:a focus:b", "q"⟩] =
    Verdict.multipleModifierGroups 1 := by decide
example : verifyFixNonDestructive ["hover:bg-red", "bg-blue"]
    "cn(\"bg-blue\", \"hover:bg-red\")" = true := by decide
example : verifyFixNonDestructive ["hover:bg-red", "bg-blue", "focus:ring-2"]
    "cn(\"bg-blue\", \"hover:bg-red\")" = false := by decide
example : verifyFixNonDestructive ["a", "a"] "x(\"a\")" = true := by decide

/-! ## Parser lemmas -/

theorem splitLastColon_none (l : List Char) (h : splitLastColon l = none) :
    ':' ∉ l := by
  induction l with
  | nil => simp
  | cons c rest ih =>
    simp only [splitLastColon] at h
    cases hr : splitLastColon rest with
    | some p => rw [hr] at h; cases h
    | none =>
      rw [hr] at h
      by_cases hc : c = ':'
      · simp [hc] at h
      · intro hmem
        rcases List.mem_cons.mp hmem with hmem | hmem
        · exact hc hmem.symm
        · exact ih hr hmem

theorem splitLastColon_some (l m b : List Char)
    (h : splitLastColon l = some (m, b)) :
    l = m ++ b ∧ m ≠ [] ∧ m.getLast? = some ':' ∧ ':' ∉ b := by
  induction l generalizing m b with
  | nil => simp [splitLastColon] at h
  | cons c rest ih =>
    simp only [splitLastColon] at h
    cases hr : splitLastColon rest with
    | some p =>
      rw [hr] at h
      obtain ⟨m', b'⟩ := p
      simp only [Option.some.injEq, Prod.mk.injEq] at h
      obtain ⟨hm, hb⟩ := h
      obtain ⟨hl, hne, hlast, hnc⟩ := ih m' b' hr
      subst hm hb
      refine ⟨by rw [hl]; rfl, by simp, ?_, hnc⟩
      obtain ⟨x, xs, rfl⟩ := List.exists_cons_of_ne_nil hne
      rw [List.getLast?_cons_cons]
      exact hlast
    | none =>
      rw [hr] at h
      by_cases hc : c = ':'
      · rw [if_pos hc] at h
        obtain ⟨hm, hb⟩ := Prod.mk.inj (Option.some.inj h)
        subst hm
        subst hb
        subst hc
        exact ⟨rfl, by simp, rfl, splitLastColon_none rest hr⟩
      · rw [if_neg hc] at h
        cases h

theorem splitLastColon_isSome_of_mem (l : List Char) (h : ':' ∈ l) :
    ∃ m b, splitLastColon l = some (m, b) := by
  induction l with
  | nil => cases h
  | cons c rest ih =>
    simp only [splitLastColon]
    cases hr : splitLastColon rest with
    | some p => exact ⟨c :: p.1, p.2, rfl⟩
    | none =>
      rcases List.mem_cons.mp h with hc | hmem
      · exact ⟨[':'], rest, by simp [← hc]⟩
      · obtain ⟨m, b, hs⟩ := ih hmem
        rw [hs] at hr; cases hr

theorem string_mk_append (a b : List Char) :
    String.mk a ++ String.mk b = String.mk (a ++ b) := rfl

theorem string_mk_data (s : String) : String.mk s.data = s := rfl

/-- C7: `parseClass` splits at the rightmost separator.  For every input
string: the original text is preserved in `full`; with no colon present the
result is `⟨s, null, s⟩`; with a colon present the modifier is the prefix up
to and including the rightmost colon (it ends with a colon and the base
contains none) and `full = modifier ++ base`; the stated invariant holds for
every parse; and `"a:b:c"` parses to modifier `"a:b:"`, base `"c"`. -/
theorem C7_parseClass_rightmost_split :
    (∀ s : String,
      (parseClass s).full = s ∧
      (':' ∉ s.data → parseClass s = ⟨s, none, s⟩) ∧
      (':' ∈ s.data → ∃ m b, parseClass s = ⟨s, some m, b⟩ ∧
        s = m ++ b ∧ m.data.getLast? = some ':' ∧ ':' ∉ b.data) ∧
      ((parseClass s).modifier = none → (parseClass s).base = s) ∧
      (∀ m, (parseClass s).modifier = some m →
        s = m ++ (parseClass s).base)) ∧
    parseClass "a:b:c" = ⟨"a:b:c", some "a:b:", "c"⟩ := by
  refine ⟨fun s => ?_, by decide⟩
  cases hs : splitLastColon s.data with
  | none =>
    have hpc : parseClass s = ⟨s, none, s⟩ := by unfold parseClass; rw [hs]
    rw [hpc]
    refine ⟨rfl, fun _ => rfl, fun hmem => ?_,
      ⟨fun _ => rfl, fun m hm => Option.noConfusion hm⟩⟩
    obtain ⟨m, b, h⟩ := splitLastColon_isSome_of_mem s.data hmem
    rw [h] at hs; cases hs
  | some p =>
    obtain ⟨mc, bc⟩ := p
    have hpc : parseClass s = ⟨s, some (String.mk mc), String.mk bc⟩ := by
      unfold parseClass; rw [hs]
    obtain ⟨hl, hne, hlast, hnc⟩ := splitLastColon_some s.data mc bc hs
    have happ : s = String.mk mc ++ String.mk bc := by
      rw [string_mk_append, ← hl, string_mk_data]
    rw [hpc]
    refine ⟨rfl, fun hno => absurd ?_ hno, fun _ => ?_,
      ⟨fun h => Option.noConfusion h, ?_⟩⟩
    · rw [hl]
      obtain ⟨hne2, hx⟩ := List.mem_getLast?_eq_getLast hlast
      rw [hx]
      exact List.mem_append_left _ (List.getLast_mem hne2)
    · exact ⟨String.mk mc, String.mk bc, rfl, happ, hlast, hnc⟩
    · intro m hm
      simp only [Option.some.injEq] at hm
      rw [← hm]
      exact happ

/-- Witness for C7 at the concrete input `"md:hover:x"`. -/
theorem C7_parseClass_rightmost_split_witness :
    ':' ∈ ("md:hover:x" : String).data ∧
    ∃ m b, parseClass "md:hover:x" = ⟨"md:hover:x", some m, b⟩ ∧
      "md:hover:x" = m ++ b ∧ m.data.getLast? = some ':' ∧ ':' ∉ b.data :=
  ⟨by decide, (C7_parseClass_rightmost_split.1 "md:hover:x").2.2.1 (by decide)⟩

/-! ## Index lookup lemmas (`KNOWN_VARIANT_ORDER.indexOf`) -/

theorem string_data_mk (l : List Char) : (String.mk l).data = l := rfl

theorem listIndexOf_mem {l : List String} {x : String} {k : Nat}
    (h : listIndexOf l x = some k) : x ∈ l := by
  induction l generalizing k with
  | nil => cases h
  | cons y rest ih =>
    simp only [listIndexOf] at h
    by_cases hy : y = x
    · rw [hy]; exact List.mem_cons_self x rest
    · rw [if_neg hy] at h
      cases hr : listIndexOf rest x with
      | none => rw [hr] at h; cases h
      | some j => exact List.mem_cons_of_mem y (ih hr)

theorem listIndexOf_lt_length {l : List String} {x : String} {k : Nat}
    (h : listIndexOf l x = some k) : k < l.length := by
  induction l generalizing k with
  | nil => cases h
  | cons y rest ih =>
    simp only [listIndexOf] at h
    by_cases hy : y = x
    · rw [if_pos hy] at h
      cases h
      simp
    · rw [if_neg hy] at h
      cases hr : listIndexOf rest x with
      | none => rw [hr] at h; cases h
      | some j =>
        rw [hr] at h
        cases h
        have := ih hr
        simp only [List.length_cons]
        omega

theorem listIndexOf_isSome_of_mem {l : List String} {x : String} (h : x ∈ l) :
    ∃ k, listIndexOf l x = some k := by
  induction l with
  | nil => cases h
  | cons y rest ih =>
    simp only [listIndexOf]
    by_cases hy : y = x
    · exact ⟨0, by rw [if_pos hy]⟩
    · rcases List.mem_cons.mp h with hx | hx
      · exact absurd hx.symm hy
      · obtain ⟨k, hk⟩ := ih hx
        exact ⟨k + 1, by rw [if_neg hy, hk]; rfl⟩

theorem listIndexOf_none_of_not_mem {l : List String} {x : String} (h : x ∉ l) :
    listIndexOf l x = none := by
  cases hk : listIndexOf l x with
  | none => rfl
  | some k => exact absurd (listIndexOf_mem hk) h

/-- The evaluation of `getModifierSortOrder` on a modifier whose
colon-stripped text is not in the known order list. -/
theorem getModifierSortOrder_unknown (u : String)
    (h1 : ¬ u.data.length = 0) (h2 : ¬ u.data.dropLast.length = 0)
    (h3 : listIndexOf KNOWN_VARIANT_ORDER (String.mk u.data.dropLast) = none)
    (h4 : u.data.contains ':' = true) :
    getModifierSortOrder (some u) =
      match listIndexOf KNOWN_VARIANT_ORDER
          (String.mk (u.data.takeWhile (fun c => c ≠ ':'))) with
      | some firstPartIndex => firstPartIndex + 1000
      | none => 10000 + charCodeAt0 (String.mk u.data.dropLast) := by
  simp only [getModifierSortOrder, string_data_mk]
  rw [if_neg h1, if_neg h2, h3, if_pos h4]

/-- The evaluation of `getModifierSortOrder` when the colon-stripped text is
empty (the early-return branches). -/
theorem getModifierSortOrder_short (m : String)
    (h1 : ¬ m.data.length = 0) (h2 : m.data.dropLast.length = 0) :
    getModifierSortOrder (some m) = 0 := by
  simp only [getModifierSortOrder, string_data_mk]
  rw [if_neg h1, if_pos h2]

/-- The evaluation of `getModifierSortOrder` on a modifier whose
colon-stripped text is found in the known order list. -/
theorem getModifierSortOrder_known (m : String) (k : Nat)
    (h1 : ¬ m.data.length = 0) (h2 : ¬ m.data.dropLast.length = 0)
    (h3 : listIndexOf KNOWN_VARIANT_ORDER (String.mk m.data.dropLast) = some k) :
    getModifierSortOrder (some m) = k := by
  simp only [getModifierSortOrder, string_data_mk]
  rw [if_neg h1, if_neg h2, h3]

theorem headD_dropLast (l : List Char) (h : l.dropLast ≠ []) :
    l.dropLast.headD 'a' = l.headD 'a' := by
  cases l with
  | nil => simp at h
  | cons a rest =>
    cases rest with
    | nil => simp at h
    | cons b t => rfl

/-- C9: every modifier whose colon-stripped text is a known variant sorts
strictly before every modifier whose stripped text is unknown, and the
unknown fall-back values are `1000 +` the first colon-separated part's known
index, or `10000 +` the character code of the first character otherwise. -/
theorem C9_unknown_modifiers_rank_after_known :
    ∀ m u : String,
      m.data.getLast? = some ':' →
      String.mk m.data.dropLast ∈ KNOWN_VARIANT_ORDER →
      u.data.getLast? = some ':' →
      String.mk u.data.dropLast ∉ KNOWN_VARIANT_ORDER →
      getModifierSortOrder (some m) < getModifierSortOrder (some u) ∧
      (∀ k, listIndexOf KNOWN_VARIANT_ORDER
          (String.mk (u.data.takeWhile (fun c => c ≠ ':'))) = some k →
        getModifierSortOrder (some u) = 1000 + k) ∧
      (listIndexOf KNOWN_VARIANT_ORDER
          (String.mk (u.data.takeWhile (fun c => c ≠ ':'))) = none →
        getModifierSortOrder (some u) = 10000 + (u.data.headD 'a').toNat) := by
  intro m u hmlast hmmem hulast humem
  -- basic shape facts about u
  have hune : u.data ≠ [] := by
    intro h; rw [h] at hulast; cases hulast
  have hulen : ¬ u.data.length = 0 := fun h => hune (List.length_eq_zero.mp h)
  have hudropne : u.data.dropLast ≠ [] := by
    intro h
    apply humem
    rw [h]
    decide
  have hudroplen : ¬ u.data.dropLast.length = 0 :=
    fun h => hudropne (List.length_eq_zero.mp h)
  have humem2 : ':' ∈ u.data := by
    obtain ⟨hne2, hx⟩ := List.mem_getLast?_eq_getLast hulast
    rw [hx]; exact List.getLast_mem hne2
  have hucont : u.data.contains ':' = true := List.elem_eq_true_of_mem humem2
  have huidx : listIndexOf KNOWN_VARIANT_ORDER (String.mk u.data.dropLast) = none :=
    listIndexOf_none_of_not_mem humem
  -- the first character of the stripped text is the first character of u
  have hhead : u.data.dropLast.headD 'a' = u.data.headD 'a' :=
    headD_dropLast u.data hudropne
  have hueq := getModifierSortOrder_unknown u hulen hudroplen huidx hucont
  -- the unknown order is at least 1000
  have hularge : 1000 ≤ getModifierSortOrder (some u) := by
    rw [hueq]
    cases hfp : listIndexOf KNOWN_VARIANT_ORDER
        (String.mk (u.data.takeWhile (fun c => c ≠ ':'))) with
    | some k => exact Nat.le_add_left 1000 k
    | none => exact le_trans (by norm_num) (Nat.le_add_right 10000 _)
  -- the known order is at most 44
  have hmsmall : getModifierSortOrder (some m) < 45 := by
    have hmne : m.data ≠ [] := by
      intro h; rw [h] at hmlast; cases hmlast
    have hmlen : ¬ m.data.length = 0 := fun h => hmne (List.length_eq_zero.mp h)
    by_cases hmd : m.data.dropLast.length = 0
    · rw [getModifierSortOrder_short m hmlen hmd]
      norm_num
    · obtain ⟨k, hk⟩ := listIndexOf_isSome_of_mem hmmem
      have := listIndexOf_lt_length hk
      rw [getModifierSortOrder_known m k hmlen hmd hk]
      simpa [KNOWN_VARIANT_ORDER, RESPONSIVE_BREAKPOINTS, PSEUDO_CLASS_VARIANTS,
        GROUP_PEER_VARIANTS, HAS_VARIANTS, SUPPORTS_VARIANTS] using this
  refine ⟨lt_of_lt_of_le (lt_of_lt_of_le hmsmall (by norm_num)) hularge, ?_, ?_⟩
  · intro k hk
    rw [hueq, hk]
    exact Nat.add_comm k 1000
  · intro hk
    rw [hueq, hk]
    simp only [charCodeAt0, string_data_mk, hhead]

/-- Witness for C9 at `m = "hover:"`, `u = "foo:"`. -/
theorem C9_unknown_modifiers_rank_after_known_witness :
    getModifierSortOrder (some "hover:") < getModifierSortOrder (some "foo:") :=
  (C9_unknown_modifiers_rank_after_known "hover:" "foo:" (by decide) (by decide)
    (by decide) (by decide)).1

/-! ## Comparator range (C3) -/

theorem cmpCharList_trichotomy (a b : List Char) :
    cmpCharList a b = -1 ∨ cmpCharList a b = 0 ∨ cmpCharList a b = 1 := by
  induction a generalizing b with
  | nil => cases b <;> simp [cmpCharList]
  | cons x xs ih =>
    cases b with
    | nil => simp [cmpCharList]
    | cons y ys =>
      simp only [cmpCharList]
      by_cases hxy : x < y
      · simp [hxy]
      · by_cases hyx : y < x
        · simp [hxy, hyx]
        · simpa [hxy, hyx] using ih ys

/-- C3 counterexample: `compareModifiers("dark:", "hover:")` returns the
priority difference `4 - 1 = 3`, which is not an element of `{-1, 0, 1}`. -/
theorem C3_counterexample_compareModifiers_returns_three :
    compareModifiers (some "dark:") (some "hover:") = 3 ∧
    ¬ (compareModifiers (some "dark:") (some "hover:") = -1 ∨
       compareModifiers (some "dark:") (some "hover:") = 0 ∨
       compareModifiers (some "dark:") (some "hover:") = 1) := by decide

/-- C3 amended: `compareModifiers` returns a value in `{-1, 0, 1}` only in
its final branch — whenever the two modifiers have equal priority and equal
sort order; when priorities or sort orders differ it returns their (arbitrary
integer) difference, as the counterexample shows. -/
theorem C3_compareModifiers_range :
    ∀ a b : Option String,
      getModifierPriority a = getModifierPriority b →
      getModifierSortOrder a = getModifierSortOrder b →
      compareModifiers a b = -1 ∨ compareModifiers a b = 0 ∨
        compareModifiers a b = 1 := by
  intro a b hp ho
  unfold compareModifiers
  rw [if_neg (by rw [hp]; exact fun h => h rfl),
    if_neg (by rw [ho]; exact fun h => h rfl)]
  exact cmpCharList_trichotomy _ _

/-- Witness for C3 amended at `a = "xa:"`, `b = "xb:"` (equal priority 7 and
equal sort order 10120). -/
theorem C3_compareModifiers_range_witness :
    compareModifiers (some "xa:") (some "xb:") = -1 ∨
    compareModifiers (some "xa:") (some "xb:") = 0 ∨
    compareModifiers (some "xa:") (some "xb:") = 1 :=
  C3_compareModifiers_range (some "xa:") (some "xb:") (by decide) (by decide)

/-! ## Order-theoretic properties of the comparator (infrastructure for C5, C6) -/

theorem cmpCharList_neg (a b : List Char) : cmpCharList a b = -cmpCharList b a := by
  induction a generalizing b with
  | nil => cases b <;> simp [cmpCharList]
  | cons x xs ih =>
    cases b with
    | nil => simp [cmpCharList]
    | cons y ys =>
      simp only [cmpCharList]
      by_cases hxy : x < y
      · rw [if_pos hxy, if_neg (lt_asymm hxy), if_pos hxy]
      · by_cases hyx : y < x
        · rw [if_neg hxy, if_pos hyx, if_pos hyx]
          norm_num
        · rw [if_neg hxy, if_neg hyx, if_neg hyx, if_neg hxy]
          exact ih ys

theorem cmpCharList_eq_zero_iff (a b : List Char) :
    cmpCharList a b = 0 ↔ a = b := by
  induction a generalizing b with
  | nil => cases b <;> simp [cmpCharList]
  | cons x xs ih =>
    cases b with
    | nil => simp [cmpCharList]
    | cons y ys =>
      simp only [cmpCharList]
      by_cases hxy : x < y
      · rw [if_pos hxy]
        simp only [List.cons.injEq]
        constructor
        · intro h; cases h
        · rintro ⟨rfl, -⟩; exact absurd hxy (lt_irrefl x)
      · by_cases hyx : y < x
        · rw [if_neg hxy, if_pos hyx]
          simp only [List.cons.injEq]
          constructor
          · intro h; cases h
          · rintro ⟨rfl, -⟩; exact absurd hyx (lt_irrefl x)
        · rw [if_neg hxy, if_neg hyx]
          have hxyeq : x = y := le_antisymm (not_lt.mp hyx) (not_lt.mp hxy)
          subst hxyeq
          simp [ih ys]

theorem cmpCharList_le_trans {a b c : List Char}
    (hab : cmpCharList a b ≤ 0) (hbc : cmpCharList b c ≤ 0) :
    cmpCharList a c ≤ 0 := by
  induction a generalizing b c with
  | nil => cases c <;> simp [cmpCharList]
  | cons x xs ih =>
    cases b with
    | nil => simp [cmpCharList] at hab
    | cons y ys =>
      cases c with
      | nil => simp [cmpCharList] at hbc
      | cons z zs =>
        simp only [cmpCharList] at hab hbc ⊢
        by_cases hxy : x < y
        · -- x < y and y ≤ z gives x < z
          have hyz : ¬ z < y := by
            intro hzy
            rw [if_neg (lt_asymm hzy), if_pos hzy] at hbc
            omega
          have hxz : x < z := lt_of_lt_of_le hxy (not_lt.mp hyz)
          rw [if_pos hxz]
          omega
        · by_cases hyx : y < x
          · rw [if_neg hxy, if_pos hyx] at hab
            omega
          · have hxyeq : x = y := le_antisymm (not_lt.mp hyx) (not_lt.mp hxy)
            subst hxyeq
            rw [if_neg hxy, if_neg hyx] at hab
            by_cases hyz : x < z
            · rw [if_pos hyz]
              omega
            · by_cases hzy : z < x
              · rw [if_neg hyz, if_pos hzy] at hbc
                omega
              · have hxzeq : x = z := le_antisymm (not_lt.mp hzy) (not_lt.mp hyz)
                subst hxzeq
                rw [if_neg hyz, if_neg hzy] at hbc ⊢
                exact ih hab hbc

theorem string_eq_of_data_eq {a b : String} (h : a.data = b.data) : a = b :=
  congrArg String.mk h

instance : IsTrans String strLe :=
  ⟨fun _ _ _ hab hbc => cmpCharList_le_trans hab hbc⟩

instance : IsTotal String strLe := by
  refine ⟨fun a b => ?_⟩
  unfold strLe localeCompare
  have h := cmpCharList_neg a.data b.data
  have h3 := cmpCharList_trichotomy a.data b.data
  omega

instance : IsAntisymm String strLe := by
  refine ⟨fun a b hab hba => ?_⟩
  unfold strLe localeCompare at hab hba
  have h := cmpCharList_neg a.data b.data
  have hz : cmpCharList a.data b.data = 0 := by omega
  exact string_eq_of_data_eq ((cmpCharList_eq_zero_iff _ _).mp hz)

theorem getModifierPriorityTail_ne_zero (m : String) :
    getModifierPriorityTail m ≠ 0 := by
  unfold getModifierPriorityTail
  split_ifs <;> omega

theorem getModifierPriority_some_ne_zero (s : String) :
    getModifierPriority (some s) ≠ 0 := by
  simp only [getModifierPriority]
  split_ifs <;> first | omega | exact getModifierPriorityTail_ne_zero s

theorem compareModifiers_zero_eq {a b : Option String}
    (h : compareModifiers a b = 0) : a = b := by
  unfold compareModifiers at h
  by_cases hp : getModifierPriority a ≠ getModifierPriority b
  · rw [if_pos hp] at h
    exfalso
    omega
  · rw [if_neg hp] at h
    have hpe : getModifierPriority a = getModifierPriority b := not_ne_iff.mp hp
    by_cases ho : getModifierSortOrder a ≠ getModifierSortOrder b
    · rw [if_pos ho] at h
      exfalso
      omega
    · rw [if_neg ho] at h
      have hgd : a.getD "" = b.getD "" :=
        string_eq_of_data_eq ((cmpCharList_eq_zero_iff _ _).mp h)
      cases a with
      | none =>
        cases b with
        | none => rfl
        | some t =>
          exact absurd hpe.symm (getModifierPriority_some_ne_zero t)
      | some s =>
        cases b with
        | none => exact absurd hpe (getModifierPriority_some_ne_zero s)
        | some t => simpa using hgd

theorem compareModifiers_of_ne_priority {a b : Option String}
    (h : getModifierPriority a ≠ getModifierPriority b) :
    compareModifiers a b =
      (getModifierPriority a : Int) - getModifierPriority b := by
  unfold compareModifiers
  rw [if_pos h]

theorem compareModifiers_of_eq_priority_ne_order {a b : Option String}
    (hp : getModifierPriority a = getModifierPriority b)
    (ho : getModifierSortOrder a ≠ getModifierSortOrder b) :
    compareModifiers a b =
      (getModifierSortOrder a : Int) - getModifierSortOrder b := by
  unfold compareModifiers
  rw [if_neg (not_ne_iff.mpr hp), if_pos ho]

theorem compareModifiers_of_eq_priority_eq_order {a b : Option String}
    (hp : getModifierPriority a = getModifierPriority b)
    (ho : getModifierSortOrder a = getModifierSortOrder b) :
    compareModifiers a b = cmpCharList (a.getD "").data (b.getD "").data := by
  unfold compareModifiers localeCompare
  rw [if_neg (not_ne_iff.mpr hp), if_neg (not_ne_iff.mpr ho)]

theorem compareModifiers_neg (a b : Option String) :
    compareModifiers a b = -compareModifiers b a := by
  by_cases hp : getModifierPriority a ≠ getModifierPriority b
  · rw [compareModifiers_of_ne_priority hp,
      compareModifiers_of_ne_priority (Ne.symm hp)]
    omega
  · have hpe : getModifierPriority a = getModifierPriority b := not_ne_iff.mp hp
    by_cases ho : getModifierSortOrder a ≠ getModifierSortOrder b
    · rw [compareModifiers_of_eq_priority_ne_order hpe ho,
        compareModifiers_of_eq_priority_ne_order hpe.symm (Ne.symm ho)]
      omega
    · have hoe : getModifierSortOrder a = getModifierSortOrder b := not_ne_iff.mp ho
      rw [compareModifiers_of_eq_priority_eq_order hpe hoe,
        compareModifiers_of_eq_priority_eq_order hpe.symm hoe.symm]
      exact cmpCharList_neg _ _

theorem compareModifiers_le_total (a b : Option String) :
    compareModifiers a b ≤ 0 ∨ compareModifiers b a ≤ 0 := by
  have h := compareModifiers_neg a b
  omega

theorem compareModifiers_le_iff (a b : Option String) :
    compareModifiers a b ≤ 0 ↔
      (getModifierPriority a < getModifierPriority b ∨
        (getModifierPriority a = getModifierPriority b ∧
          (getModifierSortOrder a < getModifierSortOrder b ∨
            (getModifierSortOrder a = getModifierSortOrder b ∧
              cmpCharList (a.getD "").data (b.getD "").data ≤ 0)))) := by
  by_cases hp : getModifierPriority a ≠ getModifierPriority b
  · rw [compareModifiers_of_ne_priority hp]
    constructor
    · intro h
      left
      omega
    · rintro (h | ⟨he, -⟩)
      · omega
      · exact absurd he hp
  · have hpe : getModifierPriority a = getModifierPriority b := not_ne_iff.mp hp
    by_cases ho : getModifierSortOrder a ≠ getModifierSortOrder b
    · rw [compareModifiers_of_eq_priority_ne_order hpe ho]
      constructor
      · intro h
        right
        exact ⟨hpe, Or.inl (by omega)⟩
      · rintro (h | ⟨-, h | ⟨he, -⟩⟩)
        · omega
        · omega
        · exact absurd he ho
    · have hoe : getModifierSortOrder a = getModifierSortOrder b := not_ne_iff.mp ho
      rw [compareModifiers_of_eq_priority_eq_order hpe hoe]
      constructor
      · intro h
        right
        exact ⟨hpe, Or.inr ⟨hoe, h⟩⟩
      · rintro (h | ⟨-, h | ⟨-, h⟩⟩)
        · omega
        · omega
        · exact h

theorem compareModifiers_le_trans {a b c : Option String}
    (hab : compareModifiers a b ≤ 0) (hbc : compareModifiers b c ≤ 0) :
    compareModifiers a c ≤ 0 := by
  rw [compareModifiers_le_iff] at hab hbc ⊢
  rcases hab with h1 | ⟨hp1, h1⟩ <;> rcases hbc with h2 | ⟨hp2, h2⟩
  · left; omega
  · left; omega
  · left; omega
  · right
    refine ⟨by omega, ?_⟩
    rcases h1 with h1 | ⟨ho1, h1⟩ <;> rcases h2 with h2 | ⟨ho2, h2⟩
    · left; omega
    · left; omega
    · left; omega
    · right
      exact ⟨by omega, cmpCharList_le_trans h1 h2⟩

theorem compareModifiers_lt_trans {a b c : Option String}
    (hab : compareModifiers a b < 0) (hbc : compareModifiers b c < 0) :
    compareModifiers a c < 0 := by
  have hle : compareModifiers a c ≤ 0 :=
    compareModifiers_le_trans (le_of_lt hab) (le_of_lt hbc)
  by_cases hz : compareModifiers a c = 0
  · have hac : a = c := compareModifiers_zero_eq hz
    subst hac
    have h := compareModifiers_neg a b
    omega
  · omega

instance : IsTrans ModifierGroup groupLe :=
  ⟨fun _ _ _ => compareModifiers_le_trans⟩

instance : IsTotal ModifierGroup groupLe :=
  ⟨fun a b => compareModifiers_le_total a.modifier b.modifier⟩

/-- Two sorted lists that are permutations of each other are equal, given
antisymmetry of the sorting relation on the elements actually present. -/
theorem eq_of_perm_of_sorted_pairwise {α : Type} {r : α → α → Prop} :
    ∀ {l₁ l₂ : List α}, l₁.Perm l₂ → l₁.Sorted r → l₂.Sorted r →
      (∀ x ∈ l₁, ∀ y ∈ l₁, r x y → r y x → x = y) → l₁ = l₂ := by
  intro l₁
  induction l₁ with
  | nil =>
    intro l₂ hp _ _ _
    exact hp.nil_eq
  | cons a t₁ ih =>
    intro l₂ hp hs₁ hs₂ hanti
    cases l₂ with
    | nil =>
      have := hp.length_eq
      simp at this
    | cons b t₂ =>
      have hab : a = b := by
        by_cases h : a = b
        · exact h
        · have hain : a ∈ b :: t₂ := hp.mem_iff.mp (List.mem_cons_self a t₁)
          have hbin : b ∈ a :: t₁ := hp.mem_iff.mpr (List.mem_cons_self b t₂)
          have hat2 : a ∈ t₂ := by
            rcases List.mem_cons.mp hain with h1 | h1
            · exact absurd h1 h
            · exact h1
          have hbt1 : b ∈ t₁ := by
            rcases List.mem_cons.mp hbin with h1 | h1
            · exact absurd h1.symm h
            · exact h1
          have hrab : r a b := List.rel_of_sorted_cons hs₁ b hbt1
          have hrba : r b a := List.rel_of_sorted_cons hs₂ a hat2
          exact hanti a (List.mem_cons_self a t₁) b (List.mem_cons_of_mem a hbt1)
            hrab hrba
      subst hab
      have hpt : t₁.Perm t₂ := hp.cons_inv
      have ht : t₁ = t₂ :=
        ih hpt hs₁.of_cons hs₂.of_cons
          (fun x hx y hy hxy hyx =>
            hanti x (List.mem_cons_of_mem a hx) y (List.mem_cons_of_mem a hy) hxy hyx)
      rw [ht]

/-- C5: `compareModifiers` induces a strict total order: results for swapped
arguments are exact negations (hence opposite in sign), a zero result forces
the same modifier text with `null` read as the empty string, the order is
transitive and total, and sorting any permutation of the same set of
modifier groups (distinct modifiers) gives the same output sequence. -/
theorem C5_compareModifiers_strict_total_order :
    (∀ a b : Option String, compareModifiers a b = -compareModifiers b a) ∧
    (∀ a b : Option String, compareModifiers a b = 0 →
      a.getD "" = b.getD "") ∧
    (∀ a b c : Option String, compareModifiers a b < 0 →
      compareModifiers b c < 0 → compareModifiers a c < 0) ∧
    (∀ a b : Option String, compareModifiers a b < 0 ∨ compareModifiers a b = 0 ∨
      0 < compareModifiers a b) ∧
    (∀ gs₁ gs₂ : List ModifierGroup, gs₁.Perm gs₂ →
      (gs₁.map ModifierGroup.modifier).Nodup →
      sortModifierGroups gs₁ = sortModifierGroups gs₂) := by
  refine ⟨compareModifiers_neg,
    fun a b h => by rw [compareModifiers_zero_eq h],
    fun a b c => compareModifiers_lt_trans,
    fun a b => by omega, ?_⟩
  intro gs₁ gs₂ hperm hnodup
  have hs₁ : (sortModifierGroups gs₁).Sorted groupLe :=
    List.sorted_insertionSort groupLe gs₁
  have hs₂ : (sortModifierGroups gs₂).Sorted groupLe :=
    List.sorted_insertionSort groupLe gs₂
  have hp : (sortModifierGroups gs₁).Perm (sortModifierGroups gs₂) :=
    (List.perm_insertionSort groupLe gs₁).trans
      (hperm.trans (List.perm_insertionSort groupLe gs₂).symm)
  refine eq_of_perm_of_sorted_pairwise hp hs₁ hs₂ ?_
  intro x hx y hy hxy hyx
  have hx1 : x ∈ gs₁ := (List.perm_insertionSort groupLe gs₁).mem_iff.mp hx
  have hy1 : y ∈ gs₁ := (List.perm_insertionSort groupLe gs₁).mem_iff.mp hy
  have hz : compareModifiers x.modifier y.modifier = 0 := by
    have hn := compareModifiers_neg x.modifier y.modifier
    unfold groupLe at hxy hyx
    omega
  exact List.inj_on_of_nodup_map hnodup hx1 hy1 (compareModifiers_zero_eq hz)

/-- Witness for C5: sorting the two orderings of the same two groups gives
the same sequence. -/
theorem C5_compareModifiers_strict_total_order_witness :
    sortModifierGroups [⟨some "hover:", ["hover:a"]⟩, ⟨none, ["b"]⟩] =
      sortModifierGroups [⟨none, ["b"]⟩, ⟨some "hover:", ["hover:a"]⟩] :=
  C5_compareModifiers_strict_total_order.2.2.2.2 _ _
    (List.Perm.swap (⟨none, ["b"]⟩ : ModifierGroup)
      (⟨some "hover:", ["hover:a"]⟩ : ModifierGroup) []) (by decide)

/-! ## Grouping structure lemmas (infrastructure for C6, C1) -/

theorem mem_keys_insertGrouped {x k : Option String} {c : String}
    {l : List (Option String × List String)} :
    x ∈ (insertGrouped k c l).map Prod.fst ↔ x ∈ l.map Prod.fst ∨ x = k := by
  induction l with
  | nil => simp [insertGrouped]
  | cons p rest ih =>
    obtain ⟨k', ds⟩ := p
    simp only [insertGrouped]
    by_cases hk : k' = k
    · subst hk
      rw [if_pos rfl]
      simp only [List.map_cons, List.mem_cons]
      constructor
      · rintro (h | h)
        · exact Or.inl (Or.inl h)
        · exact Or.inl (Or.inr h)
      · rintro ((h | h) | h)
        · exact Or.inl h
        · exact Or.inr h
        · exact Or.inl h
    · rw [if_neg hk]
      simp only [List.map_cons, List.mem_cons, ih]
      tauto

theorem insertGrouped_not_mem {k : Option String} {c : String}
    {l : List (Option String × List String)} (h : k ∉ l.map Prod.fst) :
    insertGrouped k c l = l ++ [(k, [c])] := by
  induction l with
  | nil => rfl
  | cons p rest ih =>
    obtain ⟨k', ds⟩ := p
    simp only [List.map_cons, List.mem_cons] at h
    push_neg at h
    simp only [insertGrouped]
    rw [if_neg (fun hh => h.1 hh.symm), ih h.2]
    rfl

theorem insertGrouped_last {k : Option String} {c : String} {ds : List String}
    {pre : List (Option String × List String)} (h : k ∉ pre.map Prod.fst) :
    insertGrouped k c (pre ++ [(k, ds)]) = pre ++ [(k, ds ++ [c])] := by
  induction pre with
  | nil => simp [insertGrouped]
  | cons p rest ih =>
    obtain ⟨k', ds'⟩ := p
    simp only [List.map_cons, List.mem_cons] at h
    push_neg at h
    simp only [List.cons_append, insertGrouped, List.append_eq]
    rw [if_neg (fun hh => h.1 hh.symm), ih h.2]

theorem groupFold_all_key {k : Option String} {cs ds : List String}
    {pre : List (Option String × List String)}
    (hcs : ∀ x ∈ cs, (parseClass x).modifier = k) (hpre : k ∉ pre.map Prod.fst) :
    List.foldl groupStep (pre ++ [(k, ds)]) cs = pre ++ [(k, ds ++ cs)] := by
  induction cs generalizing ds with
  | nil => simp
  | cons c rest ih =>
    have hc : (parseClass c).modifier = k := hcs c (List.mem_cons_self c rest)
    have hrest : ∀ x ∈ rest, (parseClass x).modifier = k :=
      fun x hx => hcs x (List.mem_cons_of_mem c hx)
    simp only [List.foldl_cons, groupStep, hc]
    rw [insertGrouped_last hpre, ih hrest]
    simp

theorem groupFold_new_key {k : Option String} {cs : List String}
    {acc : List (Option String × List String)} (hne : cs ≠ [])
    (hcs : ∀ x ∈ cs, (parseClass x).modifier = k) (hacc : k ∉ acc.map Prod.fst) :
    List.foldl groupStep acc cs = acc ++ [(k, cs)] := by
  cases cs with
  | nil => exact absurd rfl hne
  | cons c rest =>
    have hc : (parseClass c).modifier = k := hcs c (List.mem_cons_self c rest)
    have hrest : ∀ x ∈ rest, (parseClass x).modifier = k :=
      fun x hx => hcs x (List.mem_cons_of_mem c hx)
    simp only [List.foldl_cons, groupStep, hc]
    rw [insertGrouped_not_mem hacc, groupFold_all_key hrest hacc]
    rfl

theorem groupFold_regroup :
    ∀ (gs acc : List (Option String × List String)),
      (gs.map Prod.fst).Nodup →
      (∀ p ∈ gs, p.2 ≠ [] ∧ ∀ x ∈ p.2, (parseClass x).modifier = p.1) →
      (∀ p ∈ gs, p.1 ∉ acc.map Prod.fst) →
      List.foldl groupStep acc ((gs.map Prod.snd).flatten) = acc ++ gs := by
  intro gs
  induction gs with
  | nil => intro acc _ _ _; simp
  | cons p rest ih =>
    intro acc hnodup hwell hdisj
    obtain ⟨k, cs⟩ := p
    simp only [List.map_cons, List.flatten_cons]
    rw [List.foldl_append]
    have hwp := hwell (k, cs) (List.mem_cons_self _ _)
    have hk : k ∉ acc.map Prod.fst := hdisj (k, cs) (List.mem_cons_self _ _)
    rw [groupFold_new_key hwp.1 hwp.2 hk]
    simp only [List.map_cons, List.nodup_cons] at hnodup
    have hrest : List.foldl groupStep (acc ++ [(k, cs)]) ((rest.map Prod.snd).flatten) =
        (acc ++ [(k, cs)]) ++ rest := by
      refine ih (acc ++ [(k, cs)]) hnodup.2
        (fun q hq => hwell q (List.mem_cons_of_mem _ hq)) ?_
      intro q hq
      simp only [List.map_append, List.mem_append, List.map_cons, List.mem_cons]
      push_neg
      refine ⟨fun hh => hdisj q (List.mem_cons_of_mem _ hq) hh, ?_, by simp⟩
      intro hqk
      exact hnodup.1 (hqk ▸ List.mem_map_of_mem Prod.fst hq)
    rw [hrest]
    simp

theorem regroup_of_grouped {gs : List (Option String × List String)}
    (hnodup : (gs.map Prod.fst).Nodup)
    (hwell : ∀ p ∈ gs, p.2 ≠ [] ∧ ∀ x ∈ p.2, (parseClass x).modifier = p.1) :
    groupClassesByModifier ((gs.map Prod.snd).flatten) = gs := by
  unfold groupClassesByModifier
  rw [groupFold_regroup gs [] hnodup hwell (by simp)]
  simp

theorem insertGrouped_inv {acc : List (Option String × List String)}
    {k : Option String} {c : String} (hk : (parseClass c).modifier = k)
    (hnodup : (acc.map Prod.fst).Nodup)
    (hwell : ∀ p ∈ acc, p.2 ≠ [] ∧ ∀ x ∈ p.2, (parseClass x).modifier = p.1) :
    ((insertGrouped k c acc).map Prod.fst).Nodup ∧
    ∀ p ∈ insertGrouped k c acc,
      p.2 ≠ [] ∧ ∀ x ∈ p.2, (parseClass x).modifier = p.1 := by
  induction acc with
  | nil =>
    refine ⟨by simp [insertGrouped], ?_⟩
    intro p hp
    simp only [insertGrouped, List.mem_singleton] at hp
    subst hp
    exact ⟨by simp, by simpa using hk⟩
  | cons q rest ih =>
    obtain ⟨k', ds⟩ := q
    simp only [List.map_cons, List.nodup_cons] at hnodup
    have hwrest : ∀ p ∈ rest, p.2 ≠ [] ∧ ∀ x ∈ p.2, (parseClass x).modifier = p.1 :=
      fun p hp => hwell p (List.mem_cons_of_mem _ hp)
    have hwhead := hwell (k', ds) (List.mem_cons_self _ _)
    simp only [insertGrouped]
    by_cases hkk : k' = k
    · rw [if_pos hkk]
      subst hkk
      refine ⟨by simpa using hnodup, ?_⟩
      intro p hp
      rcases List.mem_cons.mp hp with hp | hp
      · subst hp
        refine ⟨by simp, ?_⟩
        intro x hx
        rcases List.mem_append.mp hx with hx | hx
        · exact hwhead.2 x hx
        · rw [List.mem_singleton.mp hx]
          exact hk
      · exact hwrest p hp
    · rw [if_neg hkk]
      obtain ⟨ihn, ihw⟩ := ih hnodup.2 hwrest
      refine ⟨?_, ?_⟩
      · simp only [List.map_cons, List.nodup_cons]
        refine ⟨?_, ihn⟩
        intro hmem
        rcases mem_keys_insertGrouped.mp hmem with hmem | hmem
        · exact hnodup.1 hmem
        · exact hkk hmem
      · intro p hp
        rcases List.mem_cons.mp hp with hp | hp
        · subst hp
          exact hwhead
        · exact ihw p hp

theorem groupFold_inv :
    ∀ (l : List String) (acc : List (Option String × List String)),
      (acc.map Prod.fst).Nodup →
      (∀ p ∈ acc, p.2 ≠ [] ∧ ∀ x ∈ p.2, (parseClass x).modifier = p.1) →
      ((List.foldl groupStep acc l).map Prod.fst).Nodup ∧
      ∀ p ∈ List.foldl groupStep acc l,
        p.2 ≠ [] ∧ ∀ x ∈ p.2, (parseClass x).modifier = p.1 := by
  intro l
  induction l with
  | nil => intro acc h1 h2; exact ⟨h1, h2⟩
  | cons c rest ih =>
    intro acc h1 h2
    simp only [List.foldl_cons]
    obtain ⟨h1a, h2a⟩ := insertGrouped_inv rfl h1 h2
    exact ih (groupStep acc c) h1a h2a

theorem groupClassesByModifier_inv (l : List String) :
    ((groupClassesByModifier l).map Prod.fst).Nodup ∧
    ∀ p ∈ groupClassesByModifier l,
      p.2 ≠ [] ∧ ∀ x ∈ p.2, (parseClass x).modifier = p.1 :=
  groupFold_inv l [] (by simp) (by simp)

theorem flatten_insertGrouped_perm (k : Option String) (c : String)
    (acc : List (Option String × List String)) :
    (((insertGrouped k c acc).map Prod.snd).flatten).Perm
      ((acc.map Prod.snd).flatten ++ [c]) := by
  induction acc with
  | nil => simp [insertGrouped]
  | cons q rest ih =>
    obtain ⟨k', ds⟩ := q
    simp only [insertGrouped]
    by_cases hkk : k' = k
    · rw [if_pos hkk]
      simp only [List.map_cons, List.flatten_cons, List.append_assoc]
      exact List.Perm.append_left ds List.perm_append_comm
    · rw [if_neg hkk]
      simp only [List.map_cons, List.flatten_cons, List.append_assoc]
      exact (List.Perm.refl ds).append ih

theorem flatten_groupFold_perm :
    ∀ (l : List String) (acc : List (Option String × List String)),
      (((List.foldl groupStep acc l).map Prod.snd).flatten).Perm
        ((acc.map Prod.snd).flatten ++ l) := by
  intro l
  induction l with
  | nil => intro acc; simp
  | cons c rest ih =>
    intro acc
    simp only [List.foldl_cons]
    refine (ih (groupStep acc c)).trans ?_
    have h1 : (((groupStep acc c).map Prod.snd).flatten).Perm
        ((acc.map Prod.snd).flatten ++ [c]) := flatten_insertGrouped_perm _ _ _
    refine (h1.append_right rest).trans ?_
    rw [List.append_assoc]
    exact List.Perm.refl _

theorem flatten_groupClassesByModifier_perm (l : List String) :
    (((groupClassesByModifier l).map Prod.snd).flatten).Perm l := by
  have h := flatten_groupFold_perm l []
  simpa using h

theorem flatten_map_sort_perm (A : List (Option String × List String)) :
    ((A.map (fun p => sortClassesInGroup p.2)).flatten).Perm
      ((A.map Prod.snd).flatten) := by
  induction A with
  | nil => simp
  | cons p rest ih =>
    simp only [List.map_cons, List.flatten_cons]
    exact (List.perm_insertionSort strLe p.2).append ih

/-- Structure of the canonical output of `sortClassesByModifierGroups`:
distinct modifiers, nonempty groups whose classes are sorted and carry the
group's modifier, groups sorted by the comparator, and the flattened classes
a permutation of the input. -/
theorem sortClassesByModifierGroups_spec (classes : List String) :
    ((sortClassesByModifierGroups classes).map ModifierGroup.modifier).Nodup ∧
    (∀ g ∈ sortClassesByModifierGroups classes,
      g.classes ≠ [] ∧ g.classes.Sorted strLe ∧
      ∀ x ∈ g.classes, (parseClass x).modifier = g.modifier) ∧
    (sortClassesByModifierGroups classes).Sorted groupLe ∧
    (((sortClassesByModifierGroups classes).map ModifierGroup.classes).flatten).Perm
      classes := by
  obtain ⟨hnodupA, hwellA⟩ := groupClassesByModifier_inv classes
  have hCB : sortClassesByModifierGroups classes =
      List.insertionSort groupLe
        ((groupClassesByModifier classes).map
          (fun p => (⟨p.1, sortClassesInGroup p.2⟩ : ModifierGroup))) := rfl
  have hBkeys : (((groupClassesByModifier classes).map
      (fun p => (⟨p.1, sortClassesInGroup p.2⟩ : ModifierGroup))).map
        ModifierGroup.modifier) = (groupClassesByModifier classes).map Prod.fst := by
    rw [List.map_map]
    rfl
  have hCpermB := List.perm_insertionSort groupLe
    ((groupClassesByModifier classes).map
      (fun p => (⟨p.1, sortClassesInGroup p.2⟩ : ModifierGroup)))
  refine ⟨?_, ?_, ?_, ?_⟩
  · rw [hCB, (hCpermB.map ModifierGroup.modifier).nodup_iff, hBkeys]
    exact hnodupA
  · rw [hCB]
    intro g hg
    have hgB := hCpermB.mem_iff.mp hg
    obtain ⟨p, hpA, rfl⟩ := List.mem_map.mp hgB
    obtain ⟨hne, hkey⟩ := hwellA p hpA
    refine ⟨?_, List.sorted_insertionSort strLe p.2, ?_⟩
    · intro h
      apply hne
      have h2 : List.insertionSort strLe p.2 = [] := h
      have hlen := (List.perm_insertionSort strLe p.2).length_eq
      rw [h2] at hlen
      exact List.length_eq_zero.mp hlen.symm
    · intro x hx
      have hxp : x ∈ p.2 :=
        (List.perm_insertionSort strLe p.2).mem_iff.mp hx
      exact hkey x hxp
  · rw [hCB]
    exact List.sorted_insertionSort groupLe _
  · rw [hCB]
    refine ((hCpermB.map ModifierGroup.classes).flatten).trans ?_
    have h3 : (((groupClassesByModifier classes).map
        (fun p => (⟨p.1, sortClassesInGroup p.2⟩ : ModifierGroup))).map
          ModifierGroup.classes) =
        (groupClassesByModifier classes).map (fun p => sortClassesInGroup p.2) := by
      rw [List.map_map]
      rfl
    rw [h3]
    exact (flatten_map_sort_perm _).trans
      (flatten_groupClassesByModifier_perm classes)

/-- C6: canonicalization is idempotent — flattening the canonical groups
back into one token list and canonicalizing again returns exactly the same
group sequence (same group order, same token order inside each group). -/
theorem C6_sortClassesByModifierGroups_idempotent (classes : List String) :
    sortClassesByModifierGroups
        (((sortClassesByModifierGroups classes).map ModifierGroup.classes).flatten) =
      sortClassesByModifierGroups classes := by
  obtain ⟨hnodup, hwell, hsorted, -⟩ := sortClassesByModifierGroups_spec classes
  have hpair : groupClassesByModifier
      (((sortClassesByModifierGroups classes).map ModifierGroup.classes).flatten) =
      (sortClassesByModifierGroups classes).map (fun g => (g.modifier, g.classes)) := by
    have hflat : ((sortClassesByModifierGroups classes).map ModifierGroup.classes).flatten =
        ((((sortClassesByModifierGroups classes).map
          (fun g => (g.modifier, g.classes))).map Prod.snd)).flatten := by
      rw [List.map_map]
      rfl
    rw [hflat]
    refine regroup_of_grouped ?_ ?_
    · rw [List.map_map]
      exact hnodup
    · intro p hp
      obtain ⟨g, hgC, rfl⟩ := List.mem_map.mp hp
      obtain ⟨hne, hsort, hkey⟩ := hwell g hgC
      exact ⟨hne, hkey⟩
  show sortModifierGroups
      ((groupClassesByModifier
        (((sortClassesByModifierGroups classes).map ModifierGroup.classes).flatten)).map
        (fun p => ⟨p.1, sortClassesInGroup p.2⟩)) =
      sortClassesByModifierGroups classes
  rw [hpair, List.map_map]
  have hid : (sortClassesByModifierGroups classes).map
      ((fun p => (⟨p.1, sortClassesInGroup p.2⟩ : ModifierGroup)) ∘
        (fun g => (g.modifier, g.classes))) = sortClassesByModifierGroups classes := by
    have hpt : ∀ g ∈ sortClassesByModifierGroups classes,
        ((fun p => (⟨p.1, sortClassesInGroup p.2⟩ : ModifierGroup)) ∘
          (fun g => (g.modifier, g.classes))) g = id g := by
      intro g hgC
      obtain ⟨-, hsort, -⟩ := hwell g hgC
      show (⟨g.modifier, sortClassesInGroup g.classes⟩ : ModifierGroup) = g
      rw [show sortClassesInGroup g.classes = List.insertionSort strLe g.classes from rfl,
        hsort.insertionSort_eq]
    rw [List.map_congr_left hpt, List.map_id]
  rw [hid]
  exact hsorted.insertionSort_eq

/-! ## Tokenization lemmas (infrastructure for C1, C8) -/

theorem splitWsAux_wf :
    ∀ (l acc : List Char), (∀ c ∈ acc, isWsChar c = false) →
      ∀ t ∈ splitWsAux l acc, t ≠ [] ∧ ∀ c ∈ t, isWsChar c = false := by
  intro l
  induction l with
  | nil =>
    intro acc hacc t ht
    simp only [splitWsAux] at ht
    by_cases h : acc = []
    · rw [if_pos h] at ht
      cases ht
    · rw [if_neg h] at ht
      rw [List.mem_singleton.mp ht]
      refine ⟨fun hh => h (by simpa using congrArg List.reverse hh), ?_⟩
      intro c hc
      exact hacc c (List.mem_reverse.mp hc)
  | cons c rest ih =>
    intro acc hacc t ht
    simp only [splitWsAux] at ht
    by_cases hws : isWsChar c = true
    · rw [if_pos hws] at ht
      by_cases h : acc = []
      · rw [if_pos h] at ht
        exact ih [] (by simp) t ht
      · rw [if_neg h] at ht
        rcases List.mem_cons.mp ht with ht | ht
        · rw [ht]
          refine ⟨fun hh => h (by simpa using congrArg List.reverse hh), ?_⟩
          intro d hd
          exact hacc d (List.mem_reverse.mp hd)
        · exact ih [] (by simp) t ht
    · rw [if_neg hws] at ht
      refine ih (c :: acc) ?_ t ht
      intro d hd
      rcases List.mem_cons.mp hd with hd | hd
      · rw [hd]
        exact Bool.not_eq_true _ ▸ (by simpa using hws)
      · exact hacc d hd

theorem splitWhitespace_wf (s : String) :
    ∀ t ∈ splitWhitespace s, t.data ≠ [] ∧ ∀ c ∈ t.data, isWsChar c = false := by
  intro t ht
  obtain ⟨tl, htl, rfl⟩ := List.mem_map.mp ht
  obtain ⟨hne, hwf⟩ := splitWsAux_wf s.data [] (by simp) tl htl
  exact ⟨hne, hwf⟩

theorem splitWsAux_all_ws :
    ∀ l : List Char, (∀ c ∈ l, isWsChar c = true) → splitWsAux l [] = [] := by
  intro l
  induction l with
  | nil => intro _; rfl
  | cons c rest ih =>
    intro h
    simp only [splitWsAux]
    rw [if_pos (h c (List.mem_cons_self c rest))]
    simpa using ih (fun d hd => h d (List.mem_cons_of_mem c hd))

theorem splitWhitespace_all_ws (s : String)
    (h : ∀ c ∈ s.data, isWsChar c = true) : splitWhitespace s = [] := by
  unfold splitWhitespace
  rw [splitWsAux_all_ws s.data h]
  rfl

theorem parseClass_full (s : String) : (parseClass s).full = s := by
  unfold parseClass
  rcases splitLastColon s.data with _ | ⟨m, b⟩ <;> rfl

theorem parseClasses_fulls (s : String) :
    (parseClasses s).map ParsedClass.full = splitWhitespace s := by
  unfold parseClasses
  rw [List.map_map]
  calc (splitWhitespace s).map (ParsedClass.full ∘ parseClass)
      = (splitWhitespace s).map id :=
        List.map_congr_left (fun t _ => parseClass_full t)
    _ = splitWhitespace s := List.map_id _

theorem string_data_append (a b : String) : (a ++ b).data = a.data ++ b.data := rfl

theorem splitWsAux_append_nonws {t : List Char}
    (hwf : ∀ c ∈ t, isWsChar c = false) (l acc : List Char) :
    splitWsAux (t ++ l) acc = splitWsAux l (t.reverse ++ acc) := by
  induction t generalizing acc with
  | nil => simp
  | cons c t2 ih =>
    have hc : isWsChar c = false := hwf c (List.mem_cons_self c t2)
    have ht2 : ∀ d ∈ t2, isWsChar d = false :=
      fun d hd => hwf d (List.mem_cons_of_mem c hd)
    simp only [List.cons_append, splitWsAux]
    rw [if_neg (by simp [hc])]
    simp only [List.append_eq]
    rw [ih ht2 (c :: acc)]
    simp

theorem splitWsAux_ws_cons {c : Char} (hc : isWsChar c = true)
    {acc : List Char} (hacc : acc ≠ []) (l : List Char) :
    splitWsAux (c :: l) acc = acc.reverse :: splitWsAux l [] := by
  simp only [splitWsAux]
  rw [if_pos hc, if_neg hacc]

theorem splitWhitespace_joinSpace :
    ∀ ts : List String,
      (∀ t ∈ ts, t.data ≠ [] ∧ ∀ c ∈ t.data, isWsChar c = false) →
      splitWhitespace (joinSpace ts) = ts := by
  intro ts
  induction ts with
  | nil => intro _; rfl
  | cons t rest ih =>
    intro h
    obtain ⟨hne, hwf⟩ := h t (List.mem_cons_self t rest)
    cases rest with
    | nil =>
      show (splitWsAux (joinSpace [t]).data []).map String.mk = [t]
      rw [show joinSpace [t] = t from rfl]
      have ha := splitWsAux_append_nonws hwf [] []
      simp only [List.append_nil] at ha
      rw [ha]
      simp only [splitWsAux]
      rw [if_neg (by simpa using hne)]
      simp
    | cons t2 rest2 =>
      show (splitWsAux (joinSpace (t :: t2 :: rest2)).data []).map String.mk =
        t :: t2 :: rest2
      rw [show joinSpace (t :: t2 :: rest2) = t ++ " " ++ joinSpace (t2 :: rest2)
        from rfl]
      have hdata : (t ++ " " ++ joinSpace (t2 :: rest2)).data =
          t.data ++ (' ' :: (joinSpace (t2 :: rest2)).data) := by
        rw [string_data_append, string_data_append, List.append_assoc]
        rfl
      rw [hdata, splitWsAux_append_nonws hwf]
      rw [splitWsAux_ws_cons (by decide) (by simpa using hne)]
      simp only [List.append_nil, List.reverse_reverse, List.map_cons]
      congr 1
      exact ih (fun x hx => h x (List.mem_cons_of_mem t hx))

theorem joinSpace_data_ne :
    ∀ ts : List String, ts ≠ [] → (∀ t ∈ ts, t.data ≠ []) →
      (joinSpace ts).data ≠ [] := by
  intro ts hne hwf
  cases ts with
  | nil => exact absurd rfl hne
  | cons t rest =>
    cases rest with
    | nil => exact hwf t (List.mem_cons_self t [])
    | cons t2 rest2 =>
      rw [show joinSpace (t :: t2 :: rest2) = t ++ " " ++ joinSpace (t2 :: rest2)
        from rfl]
      rw [string_data_append, string_data_append]
      intro hh
      exact hwf t (List.mem_cons_self t _) (by simpa using (List.append_eq_nil.mp
        (List.append_eq_nil.mp hh).1).1)

/-! ## The fix generator on degenerate input (C8) -/

theorem isTruthyStringArg_iff (info : ArgumentInfo) :
    isTruthyStringArg info = true ↔
      info.isStringLiteral = true ∧ info.classString.getD "" ≠ "" := by
  simp [isTruthyStringArg]

theorem collect_ws_only :
    ∀ (infos : List ArgumentInfo) (acc : List String),
      (∀ info ∈ infos, info.isStringLiteral = true →
        ∀ cs, info.classString = some cs → ∀ c ∈ cs.data, isWsChar c = true) →
      infos.foldl (fun acc info =>
        if isTruthyStringArg info then
          acc ++ (parseClasses (info.classString.getD "")).map (fun p => p.full)
        else acc) acc = acc := by
  intro infos
  induction infos with
  | nil => intro acc _; rfl
  | cons info rest ih =>
    intro acc h
    simp only [List.foldl_cons]
    have hrest := fun i hi => h i (List.mem_cons_of_mem info hi)
    by_cases ht : isTruthyStringArg info = true
    · obtain ⟨hsl, hcs⟩ := (isTruthyStringArg_iff info).mp ht
      rw [if_pos ht]
      cases hcso : info.classString with
      | none => rw [hcso] at hcs; exact absurd rfl hcs
      | some cs =>
        have hws := h info (List.mem_cons_self info rest) hsl cs hcso
        simp only [Option.getD_some]
        have hempty : parseClasses cs = [] := by
          unfold parseClasses
          rw [splitWhitespace_all_ws cs hws]
          rfl
        rw [hempty]
        simpa using ih acc hrest
    · rw [if_neg ht]
      exact ih acc hrest

/-- C8: when every string-literal argument is empty or whitespace-only,
`generateFunctionCallFix` returns the no-rewrite result `null` and no fix is
emitted. -/
theorem C8_whitespace_only_arguments_no_fix :
    ∀ argumentInfo : List ArgumentInfo,
      (∀ info ∈ argumentInfo, info.isStringLiteral = true →
        ∀ cs, info.classString = some cs → ∀ c ∈ cs.data, isWsChar c = true) →
      generateFunctionCallFix argumentInfo = none := by
  intro infos h
  have hc : collectAllClasses infos = [] := collect_ws_only infos [] h
  unfold generateFunctionCallFix
  rw [if_pos hc]

/-- Witness for C8: a whitespace-only string argument next to an opaque
expression argument produces no fix. -/
theorem C8_whitespace_only_arguments_no_fix_witness :
    generateFunctionCallFix
      [⟨true, some "  ", "w"⟩, ⟨false, none, "props.extra"⟩] = none :=
  C8_whitespace_only_arguments_no_fix _ (by decide)

/-! ## Multiset preservation of the generated fix (C1) -/

theorem collect_foldl_eq :
    ∀ (infos : List ArgumentInfo) (acc : List String),
      infos.foldl (fun acc info =>
        if isTruthyStringArg info then
          acc ++ (parseClasses (info.classString.getD "")).map (fun p => p.full)
        else acc) acc
      = acc ++ (infos.map (fun info =>
          if info.isStringLiteral = true then
            splitWhitespace (info.classString.getD "") else [])).flatten := by
  intro infos
  induction infos with
  | nil => intro acc; simp
  | cons info rest ih =>
    intro acc
    simp only [List.foldl_cons, List.map_cons, List.flatten_cons]
    by_cases ht : isTruthyStringArg info = true
    · obtain ⟨hsl, -⟩ := (isTruthyStringArg_iff info).mp ht
      rw [if_pos ht, ih, if_pos hsl, parseClasses_fulls]
      simp [List.append_assoc]
    · rw [if_neg ht, ih]
      by_cases hsl : info.isStringLiteral = true
      · have hcs : info.classString.getD "" = "" := by
          by_contra hcs
          exact ht ((isTruthyStringArg_iff info).mpr ⟨hsl, hcs⟩)
        rw [if_pos hsl, hcs]
        rfl
      · rw [if_neg hsl]
        rfl

theorem collectAllClasses_eq (infos : List ArgumentInfo) :
    collectAllClasses infos = (infos.map (fun info =>
      if info.isStringLiteral = true then
        splitWhitespace (info.classString.getD "") else [])).flatten := by
  unfold collectAllClasses
  rw [collect_foldl_eq]
  rfl

theorem collectAllClasses_wf (infos : List ArgumentInfo) :
    ∀ x ∈ collectAllClasses infos,
      x.data ≠ [] ∧ ∀ c ∈ x.data, isWsChar c = false := by
  rw [collectAllClasses_eq]
  intro x hx
  obtain ⟨l, hl, hxl⟩ := List.mem_flatten.mp hx
  obtain ⟨info, -, rfl⟩ := List.mem_map.mp hl
  by_cases hsl : info.isStringLiteral = true
  · rw [if_pos hsl] at hxl
    exact splitWhitespace_wf _ x hxl
  · rw [if_neg hsl] at hxl
    cases hxl

theorem newStrs_foldl :
    ∀ (gs : List ModifierGroup) (acc : List String),
      (∀ g ∈ gs, g.classes ≠ [] ∧ ∀ x ∈ g.classes, x.data ≠ []) →
      gs.foldl (fun acc group =>
        if group.classes = [] then acc
        else
          let groupString := joinSpace (sortClassesInGroup group.classes)
          if groupString = "" then acc else acc ++ [groupString]) acc
      = acc ++ gs.map (fun g => joinSpace (sortClassesInGroup g.classes)) := by
  intro gs
  induction gs with
  | nil => intro acc _; simp
  | cons g rest ih =>
    intro acc h
    obtain ⟨hne, hwf⟩ := h g (List.mem_cons_self g rest)
    simp only [List.foldl_cons, List.map_cons]
    rw [if_neg hne]
    have hsne : sortClassesInGroup g.classes ≠ [] := by
      intro hh
      apply hne
      have h2 : List.insertionSort strLe g.classes = [] := hh
      have hlen := (List.perm_insertionSort strLe g.classes).length_eq
      rw [h2] at hlen
      exact List.length_eq_zero.mp hlen.symm
    have hswf : ∀ x ∈ sortClassesInGroup g.classes, x.data ≠ [] := by
      intro x hx
      exact hwf x ((List.perm_insertionSort strLe g.classes).mem_iff.mp hx)
    have hjne : joinSpace (sortClassesInGroup g.classes) ≠ "" := by
      intro hh
      exact joinSpace_data_ne _ hsne hswf (congrArg String.data hh)
    rw [if_neg hjne, ih _ (fun q hq => h q (List.mem_cons_of_mem g hq))]
    simp [List.append_assoc]

theorem newStringArgumentsOf_eq (gs : List ModifierGroup)
    (h : ∀ g ∈ gs, g.classes ≠ [] ∧ ∀ x ∈ g.classes, x.data ≠ []) :
    newStringArgumentsOf gs =
      gs.map (fun g => joinSpace (sortClassesInGroup g.classes)) := by
  unfold newStringArgumentsOf
  rw [newStrs_foldl gs [] h]
  rfl

theorem buildAllArguments_strTokens (newStrs : List String) :
    ∀ (infos : List ArgumentInfo) (added : Bool),
      ((buildAllArguments newStrs infos added).map (fun a =>
        match a with
        | FixArg.str s => splitWhitespace s
        | FixArg.expr _ => [])).flatten
      = if added then [] else (newStrs.map splitWhitespace).flatten := by
  intro infos
  induction infos with
  | nil =>
    intro added
    cases added with
    | true => rfl
    | false =>
      simp only [buildAllArguments]
      by_cases hn : newStrs.length > 0
      · rw [if_pos (by simp [hn])]
        simp only [if_neg (by simp : ¬ (false = true))]
        rw [List.map_map]
        rfl
      · rw [if_neg (by simp [hn])]
        have : newStrs = [] := List.length_eq_zero.mp (by omega)
        rw [this]
        rfl
  | cons info rest ih =>
    intro added
    simp only [buildAllArguments]
    by_cases hsl : info.isStringLiteral = true
    · rw [if_pos hsl]
      cases added with
      | true =>
        simp only [Bool.not_true, if_neg (by simp : ¬ (false = true))]
        exact ih true
      | false =>
        simp only [Bool.not_false, if_true]
        rw [List.map_append, List.flatten_append, ih true]
        simp only [if_true, List.append_nil]
        rw [List.map_map]
        rfl
    · rw [if_neg hsl]
      simp only [List.map_cons, List.flatten_cons]
      rw [ih added]
      rfl

theorem flatten_map_sortClasses_perm (gs : List ModifierGroup) :
    ((gs.map (fun g => sortClassesInGroup g.classes)).flatten).Perm
      ((gs.map ModifierGroup.classes).flatten) := by
  induction gs with
  | nil => simp
  | cons g rest ih =>
    simp only [List.map_cons, List.flatten_cons]
    exact (List.perm_insertionSort strLe g.classes).append ih

/-- C1: whenever `generateFunctionCallFix` produces a rewrite, the multiset
of whitespace-delimited class tokens contained in the string-literal
arguments of the input equals the multiset of class tokens contained in the
string arguments of the generated replacement — no token is created,
dropped, or duplicated. -/
theorem C1_generateFunctionCallFix_preserves_token_multiset :
    ∀ (argumentInfo : List ArgumentInfo) (out : List FixArg),
      generateFunctionCallFix argumentInfo = some out →
      (((argumentInfo.map (fun info =>
          if info.isStringLiteral = true then
            splitWhitespace (info.classString.getD "") else [])).flatten :
        List String) : Multiset String) =
      (((out.map (fun a => match a with
          | FixArg.str s => splitWhitespace s
          | FixArg.expr _ => [])).flatten : List String) : Multiset String) := by
  intro infos out h
  unfold generateFunctionCallFix at h
  by_cases h1 : collectAllClasses infos = []
  · rw [if_pos h1] at h
    cases h
  rw [if_neg h1] at h
  by_cases h2 : sortClassesByModifierGroups (collectAllClasses infos) = []
  · rw [if_pos h2] at h
    cases h
  rw [if_neg h2] at h
  by_cases h3 : newStringArgumentsOf
      (sortClassesByModifierGroups (collectAllClasses infos)) = []
  · rw [if_pos h3] at h
    cases h
  rw [if_neg h3] at h
  by_cases h4 : newStringArgumentsOf
      (sortClassesByModifierGroups (collectAllClasses infos)) =
      originalStringArgsOf infos
  · rw [if_pos h4] at h
    cases h
  rw [if_neg h4] at h
  have hout : out = buildAllArguments
      (newStringArgumentsOf (sortClassesByModifierGroups (collectAllClasses infos)))
      infos false := (Option.some.inj h).symm
  subst hout
  obtain ⟨-, hwell, -, hflatperm⟩ :=
    sortClassesByModifierGroups_spec (collectAllClasses infos)
  have hwfdata : ∀ g ∈ sortClassesByModifierGroups (collectAllClasses infos),
      ∀ x ∈ g.classes, x.data ≠ [] ∧ ∀ c ∈ x.data, isWsChar c = false := by
    intro g hg x hx
    have hxf : x ∈ ((sortClassesByModifierGroups
        (collectAllClasses infos)).map ModifierGroup.classes).flatten :=
      List.mem_flatten.mpr ⟨g.classes, List.mem_map_of_mem ModifierGroup.classes hg, hx⟩
    exact collectAllClasses_wf infos x (hflatperm.mem_iff.mp hxf)
  have hnew := newStringArgumentsOf_eq
    (sortClassesByModifierGroups (collectAllClasses infos))
    (fun g hg => ⟨(hwell g hg).1, fun x hx => (hwfdata g hg x hx).1⟩)
  have hstr := buildAllArguments_strTokens
    (newStringArgumentsOf (sortClassesByModifierGroups (collectAllClasses infos)))
    infos false
  simp only [if_neg (by simp : ¬ (false = true))] at hstr
  have hsplit : ∀ g ∈ sortClassesByModifierGroups (collectAllClasses infos),
      (splitWhitespace ∘ fun g => joinSpace (sortClassesInGroup g.classes)) g =
      (fun g => sortClassesInGroup g.classes) g := by
    intro g hg
    show splitWhitespace (joinSpace (sortClassesInGroup g.classes)) =
      sortClassesInGroup g.classes
    apply splitWhitespace_joinSpace
    intro t ht
    exact hwfdata g hg t ((List.perm_insertionSort strLe g.classes).mem_iff.mp ht)
  have houtTokens : ((buildAllArguments
      (newStringArgumentsOf (sortClassesByModifierGroups (collectAllClasses infos)))
      infos false).map (fun a => match a with
        | FixArg.str s => splitWhitespace s
        | FixArg.expr _ => [])).flatten =
      ((sortClassesByModifierGroups (collectAllClasses infos)).map
        (fun g => sortClassesInGroup g.classes)).flatten := by
    rw [hstr, hnew, List.map_map]
    rw [List.map_congr_left hsplit]
  rw [Multiset.coe_eq_coe, houtTokens, ← collectAllClasses_eq infos]
  exact ((flatten_map_sortClasses_perm _).trans hflatperm).symm

/-- Witness for C1: a single argument `"b a"` is rewritten and the token
multiset `{a, b}` is preserved. -/
theorem C1_generateFunctionCallFix_preserves_token_multiset_witness :
    ((([⟨true, some "b a", "q"⟩] : List ArgumentInfo).map (fun info =>
        if info.isStringLiteral = true then
          splitWhitespace (info.classString.getD "") else [])).flatten :
      Multiset String) =
    ((([FixArg.str "a b"] : List FixArg).map (fun a => match a with
        | FixArg.str s => splitWhitespace s
        | FixArg.expr _ => [])).flatten : Multiset String) :=
  C1_generateFunctionCallFix_preserves_token_multiset
    [⟨true, some "b a", "q"⟩] [FixArg.str "a b"] (by decide)

/-! ## Violation priority of the rule dispatch (C4) -/

theorem mem_of_getElemOpt {l : List ArgumentInfo} {i : Nat} {a : ArgumentInfo}
    (h : l[i]? = some a) : a ∈ l := by
  obtain ⟨hlt, rfl⟩ := List.getElem?_eq_some.mp h
  exact List.getElem_mem hlt

theorem checkArgsLoop_spec :
    ∀ (l : List ArgumentInfo) (k i : Nat) (info : ArgumentInfo),
      l[i]? = some info →
      (∀ j info2, j < i → l[j]? = some info2 → isTruthyStringArg info2 = true →
        mixesBaseAndModifiers (info2.classString.getD "") = false ∧
        hasMultipleModifierGroups (info2.classString.getD "") = false) →
      isTruthyStringArg info = true →
      ((mixesBaseAndModifiers (info.classString.getD "") = true →
        checkArgsLoop (List.enumFrom k l) = Verdict.mixedBaseAndModifiers (k + i)) ∧
       (mixesBaseAndModifiers (info.classString.getD "") = false →
        hasMultipleModifierGroups (info.classString.getD "") = true →
        checkArgsLoop (List.enumFrom k l) = Verdict.multipleModifierGroups (k + i))) := by
  intro l
  induction l with
  | nil =>
    intro k i info hi
    simp at hi
  | cons a rest ih =>
    intro k i info hi hearlier htruthy
    rw [show List.enumFrom k (a :: rest) = (k, a) :: List.enumFrom (k + 1) rest
      from rfl]
    cases i with
    | zero =>
      have ha : a = info := by simpa using hi
      subst ha
      simp only [checkArgsLoop]
      rw [if_pos htruthy]
      constructor
      · intro hmix
        rw [if_pos hmix]
        simp
      · intro hmix hmult
        rw [if_neg (by simp [hmix]), if_pos hmult]
        simp
    | succ i2 =>
      have hi2 : rest[i2]? = some info := by simpa using hi
      have hearlier2 : ∀ j info2, j < i2 → rest[j]? = some info2 →
          isTruthyStringArg info2 = true →
          mixesBaseAndModifiers (info2.classString.getD "") = false ∧
          hasMultipleModifierGroups (info2.classString.getD "") = false := by
        intro j info2 hj hjget hjt
        refine hearlier (j + 1) info2 (by omega) (by simpa using hjget) hjt
      have hrec := ih (k + 1) i2 info hi2 hearlier2 htruthy
      have hk : k + 1 + i2 = k + (i2 + 1) := by omega
      rw [hk] at hrec
      simp only [checkArgsLoop]
      by_cases hat : isTruthyStringArg a = true
      · have ha0 : (a :: rest)[0]? = some a := by simp
        obtain ⟨hamix, hamult⟩ := hearlier 0 a (by omega) ha0 hat
        rw [if_pos hat, if_neg (by simp [hamix]), if_neg (by simp [hamult])]
        exact hrec
      · rw [if_neg hat]
        exact hrec

/-- C4: the violation checks of `handleStandardFunctionCall` run in fixed
priority — the cross-slot split-modifier check short-circuits first; only
when it is false are arguments checked one at a time in order, and within
the first offending argument the mixed-base-and-modifiers condition is
reported, never multiple-modifier-groups, even when both hold. -/
theorem C4_violation_check_priority :
    ∀ argumentInfo : List ArgumentInfo,
      (classStringsOf argumentInfo ≠ [] →
        hasSplitModifiers (classStringsOf argumentInfo) = true →
        handleStandardFunctionCall argumentInfo = Verdict.splitModifier) ∧
      (hasSplitModifiers (classStringsOf argumentInfo) = false →
        ∀ i info, argumentInfo[i]? = some info →
          isTruthyStringArg info = true →
          (∀ j info2, j < i → argumentInfo[j]? = some info2 →
            isTruthyStringArg info2 = true →
            mixesBaseAndModifiers (info2.classString.getD "") = false ∧
            hasMultipleModifierGroups (info2.classString.getD "") = false) →
          (mixesBaseAndModifiers (info.classString.getD "") = true →
            handleStandardFunctionCall argumentInfo =
              Verdict.mixedBaseAndModifiers i) ∧
          (mixesBaseAndModifiers (info.classString.getD "") = false →
            hasMultipleModifierGroups (info.classString.getD "") = true →
            handleStandardFunctionCall argumentInfo =
              Verdict.multipleModifierGroups i)) := by
  intro infos
  constructor
  · intro hne hsplit
    unfold handleStandardFunctionCall
    rw [if_neg hne, if_pos hsplit]
  · intro hsplit i info hget htruthy hearlier
    have hcs : classStringsOf infos ≠ [] := by
      have hmem : info ∈ infos := mem_of_getElemOpt hget
      have hfil : info ∈ infos.filter isTruthyStringArg :=
        List.mem_filter.mpr ⟨hmem, htruthy⟩
      have : info.classString.getD "" ∈ classStringsOf infos :=
        List.mem_map_of_mem (fun i => i.classString.getD "") hfil
      exact List.ne_nil_of_mem this
    have hloop := checkArgsLoop_spec infos 0 i info hget hearlier htruthy
    simp only [Nat.zero_add] at hloop
    unfold handleStandardFunctionCall
    rw [if_neg hcs, if_neg (by simp [hsplit])]
    exact hloop

/-- Witness for C4: two arguments splitting the `hover:` modifier are
reported as a split-modifier violation. -/
theorem C4_violation_check_priority_witness :
    handleStandardFunctionCall
      [⟨true, some "hover:a", "q"⟩, ⟨true, some "hover:b", "r"⟩] =
      Verdict.splitModifier :=
  (C4_violation_check_priority
    [⟨true, some "hover:a", "q"⟩, ⟨true, some "hover:b", "r"⟩]).1
    (by decide) (by decide)

/-! ## Characterizing `hasSplitModifiers` (C2) -/

theorem lookupSources_addSource_same (m : Option String) (i : Nat) :
    ∀ acc, lookupSources m (addSource m i acc) =
      if i ∈ lookupSources m acc then lookupSources m acc
      else lookupSources m acc ++ [i] := by
  intro acc
  induction acc with
  | nil => simp [addSource, lookupSources]
  | cons q rest ih =>
    obtain ⟨k, s⟩ := q
    simp only [addSource]
    by_cases hk : k = m
    · rw [if_pos hk]
      simp only [lookupSources, if_pos hk]
    · rw [if_neg hk]
      simp only [lookupSources, if_neg hk]
      exact ih

theorem lookupSources_addSource_other {m k : Option String} (hne : m ≠ k)
    (i : Nat) : ∀ acc, lookupSources m (addSource k i acc) =
      lookupSources m acc := by
  intro acc
  induction acc with
  | nil =>
    simp only [addSource, lookupSources]
    rw [if_neg (fun hh => hne hh.symm)]
  | cons q rest ih =>
    obtain ⟨k2, s⟩ := q
    simp only [addSource]
    by_cases hk2 : k2 = k
    · rw [if_pos hk2]
      simp only [lookupSources]
      rw [if_neg (by rw [hk2]; exact fun hh => hne hh.symm),
        if_neg (by rw [hk2]; exact fun hh => hne hh.symm)]
    · rw [if_neg hk2]
      simp only [lookupSources]
      by_cases hk2m : k2 = m
      · rw [if_pos hk2m, if_pos hk2m]
      · rw [if_neg hk2m, if_neg hk2m]
        exact ih

theorem lookupSources_innerFold (i : Nat) :
    ∀ (keys : List (Option String)) (acc : List (Option String × List Nat))
      (m : Option String),
      lookupSources m (keys.foldl (fun acc k => addSource k i acc) acc) =
      if m ∈ keys ∧ i ∉ lookupSources m acc then lookupSources m acc ++ [i]
      else lookupSources m acc := by
  intro keys
  induction keys with
  | nil =>
    intro acc m
    simp
  | cons k rest ih =>
    intro acc m
    simp only [List.foldl_cons]
    rw [ih (addSource k i acc) m]
    by_cases hmk : m = k
    · subst hmk
      rw [lookupSources_addSource_same]
      by_cases hiacc : i ∈ lookupSources m acc
      · rw [if_pos hiacc]
        rw [if_neg (by simp [hiacc]), if_neg (by simp [hiacc])]
      · rw [if_neg hiacc]
        rw [if_neg (by simp), if_pos ⟨List.mem_cons_self m rest, hiacc⟩]
    · rw [lookupSources_addSource_other hmk i acc]
      by_cases hcond : m ∈ rest ∧ i ∉ lookupSources m acc
      · rw [if_pos hcond, if_pos ⟨List.mem_cons_of_mem k hcond.1, hcond.2⟩]
      · rw [if_neg hcond, if_neg ?_]
        intro hcond2
        rcases List.mem_cons.mp hcond2.1 with h1 | h1
        · exact hmk h1
        · exact hcond ⟨h1, hcond2.2⟩

theorem mem_keys_addSource {x m : Option String} {i : Nat}
    {acc : List (Option String × List Nat)} :
    x ∈ (addSource m i acc).map Prod.fst ↔ x ∈ acc.map Prod.fst ∨ x = m := by
  induction acc with
  | nil => simp [addSource]
  | cons q rest ih =>
    obtain ⟨k, s⟩ := q
    simp only [addSource]
    by_cases hk : k = m
    · subst hk
      rw [if_pos rfl]
      simp only [List.map_cons, List.mem_cons]
      tauto
    · rw [if_neg hk]
      simp only [List.map_cons, List.mem_cons, ih]
      tauto

theorem addSource_keys_nodup {m : Option String} {i : Nat}
    {acc : List (Option String × List Nat)}
    (h : (acc.map Prod.fst).Nodup) :
    ((addSource m i acc).map Prod.fst).Nodup := by
  induction acc with
  | nil => simp [addSource]
  | cons q rest ih =>
    obtain ⟨k, s⟩ := q
    simp only [List.map_cons, List.nodup_cons] at h
    simp only [addSource]
    by_cases hk : k = m
    · rw [if_pos hk]
      simp only [List.map_cons, List.nodup_cons]
      exact h
    · rw [if_neg hk]
      simp only [List.map_cons, List.nodup_cons]
      refine ⟨?_, ih h.2⟩
      intro hmem
      rcases mem_keys_addSource.mp hmem with h1 | h1
      · exact h.1 h1
      · exact hk h1

theorem innerFold_keys_nodup (i : Nat) :
    ∀ (keys : List (Option String)) (acc : List (Option String × List Nat)),
      (acc.map Prod.fst).Nodup →
      ((keys.foldl (fun acc k => addSource k i acc) acc).map Prod.fst).Nodup := by
  intro keys
  induction keys with
  | nil => intro acc h; exact h
  | cons k rest ih =>
    intro acc h
    simp only [List.foldl_cons]
    exact ih (addSource k i acc) (addSource_keys_nodup h)

theorem buildModifierSources_keys_nodup (cs : List String) :
    ((buildModifierSources cs).map Prod.fst).Nodup := by
  unfold buildModifierSources
  generalize List.enum cs = ps
  suffices h : ∀ (ps : List (Nat × String)) (acc : List (Option String × List Nat)),
      (acc.map Prod.fst).Nodup →
      ((ps.foldl (fun acc p =>
        ((groupClassString p.2).map (fun g => g.modifier)).foldl
          (fun acc m => addSource m p.1 acc) acc) acc).map Prod.fst).Nodup by
    exact h ps [] (by simp)
  intro ps
  induction ps with
  | nil => intro acc h; exact h
  | cons p rest ih =>
    intro acc h
    simp only [List.foldl_cons]
    exact ih _ (innerFold_keys_nodup p.1 _ acc h)

theorem lookup_of_mem_nodup :
    ∀ {acc : List (Option String × List Nat)} {m : Option String} {s : List Nat},
      (acc.map Prod.fst).Nodup → (m, s) ∈ acc → lookupSources m acc = s := by
  intro acc
  induction acc with
  | nil => intro m s _ h; cases h
  | cons q rest ih =>
    intro m s hnodup hmem
    obtain ⟨k, t⟩ := q
    simp only [List.map_cons, List.nodup_cons] at hnodup
    rcases List.mem_cons.mp hmem with h1 | h1
    · obtain ⟨hk, ht⟩ := Prod.mk.inj h1.symm
      simp only [lookupSources]
      rw [if_pos hk]
      exact ht
    · have hkm : k ≠ m := by
        intro hkm
        subst hkm
        exact hnodup.1 (List.mem_map_of_mem Prod.fst h1)
      simp only [lookupSources]
      rw [if_neg hkm]
      exact ih hnodup.2 h1

theorem mem_of_lookup_ne_nil :
    ∀ {acc : List (Option String × List Nat)} {m : Option String},
      lookupSources m acc ≠ [] → (m, lookupSources m acc) ∈ acc := by
  intro acc
  induction acc with
  | nil => intro m h; exact absurd rfl h
  | cons q rest ih =>
    intro m h
    obtain ⟨k, t⟩ := q
    by_cases hk : k = m
    · subst hk
      simp only [lookupSources, if_pos rfl] at h ⊢
      exact List.mem_cons_self _ _
    · simp only [lookupSources, if_neg hk] at h ⊢
      exact List.mem_cons_of_mem _ (ih h)

theorem lookupSources_outerFold :
    ∀ (slots : List String) (k : Nat)
      (acc : List (Option String × List Nat)) (m : Option String),
      (∀ x ∈ lookupSources m acc, x < k) →
      lookupSources m ((List.enumFrom k slots).foldl
        (fun acc p =>
          ((groupClassString p.2).map (fun g => g.modifier)).foldl
            (fun acc m => addSource m p.1 acc) acc) acc) =
      lookupSources m acc ++
        (List.enumFrom k slots).filterMap
          (fun p => if m ∈ slotMods p.2 then some p.1 else none) := by
  intro slots
  induction slots with
  | nil => intro k acc m _; simp
  | cons s rest ih =>
    intro k acc m hbound
    rw [show List.enumFrom k (s :: rest) = (k, s) :: List.enumFrom (k + 1) rest
      from rfl]
    simp only [List.foldl_cons, List.filterMap_cons]
    have hfresh : k ∉ lookupSources m acc := fun hk => lt_irrefl k (hbound k hk)
    have hinner := lookupSources_innerFold k (slotMods s) acc m
    by_cases hm : m ∈ slotMods s
    · have hacc2 : lookupSources m
          ((slotMods s).foldl (fun acc k2 => addSource k2 k acc) acc) =
          lookupSources m acc ++ [k] := by
        rw [hinner, if_pos ⟨hm, hfresh⟩]
      have hbound2 : ∀ x ∈ lookupSources m
          ((slotMods s).foldl (fun acc k2 => addSource k2 k acc) acc),
          x < k + 1 := by
        rw [hacc2]
        intro x hx
        rcases List.mem_append.mp hx with hx | hx
        · exact lt_trans (hbound x hx) (Nat.lt_succ_self k)
        · rw [List.mem_singleton.mp hx]
          exact Nat.lt_succ_self k
      rw [show ((groupClassString s).map (fun g => g.modifier)).foldl
          (fun acc m => addSource m k acc) acc =
          (slotMods s).foldl (fun acc k2 => addSource k2 k acc) acc from rfl]
      rw [ih (k + 1) _ m hbound2, hacc2, if_pos hm]
      simp [List.append_assoc]
    · have hacc2 : lookupSources m
          ((slotMods s).foldl (fun acc k2 => addSource k2 k acc) acc) =
          lookupSources m acc := by
        rw [hinner, if_neg (fun hh => hm hh.1)]
      have hbound2 : ∀ x ∈ lookupSources m
          ((slotMods s).foldl (fun acc k2 => addSource k2 k acc) acc),
          x < k + 1 := by
        rw [hacc2]
        intro x hx
        exact lt_trans (hbound x hx) (Nat.lt_succ_self k)
      rw [show ((groupClassString s).map (fun g => g.modifier)).foldl
          (fun acc m => addSource m k acc) acc =
          (slotMods s).foldl (fun acc k2 => addSource k2 k acc) acc from rfl]
      rw [ih (k + 1) _ m hbound2, hacc2, if_neg hm]

theorem sources_bound (m : Option String) :
    ∀ (slots : List String) (k : Nat),
      ∀ x ∈ (List.enumFrom k slots).filterMap
        (fun p => if m ∈ slotMods p.2 then some p.1 else none), k ≤ x := by
  intro slots
  induction slots with
  | nil => intro k x hx; cases hx
  | cons s rest ih =>
    intro k x hx
    rw [show List.enumFrom k (s :: rest) = (k, s) :: List.enumFrom (k + 1) rest
      from rfl] at hx
    simp only [List.filterMap_cons] at hx
    by_cases hm : m ∈ slotMods s
    · rw [if_pos hm] at hx
      rcases List.mem_cons.mp hx with hx | hx
      · omega
      · have := ih (k + 1) x hx
        omega
    · rw [if_neg hm] at hx
      have := ih (k + 1) x hx
      omega

theorem sources_mem (m : Option String) :
    ∀ (slots : List String) (k x : Nat),
      x ∈ (List.enumFrom k slots).filterMap
        (fun p => if m ∈ slotMods p.2 then some p.1 else none) ↔
      ∃ i, x = k + i ∧ i < slots.length ∧ m ∈ slotMods (slots.getD i "") := by
  intro slots
  induction slots with
  | nil =>
    intro k x
    simp
  | cons s rest ih =>
    intro k x
    rw [show List.enumFrom k (s :: rest) = (k, s) :: List.enumFrom (k + 1) rest
      from rfl]
    simp only [List.filterMap_cons]
    constructor
    · intro hx
      by_cases hm : m ∈ slotMods s
      · rw [if_pos hm] at hx
        rcases List.mem_cons.mp hx with hx | hx
        · exact ⟨0, by omega, by simp, by simpa [hx] using hm⟩
        · obtain ⟨i, hxi, hilen, hicond⟩ := (ih (k + 1) x).mp hx
          exact ⟨i + 1, by omega, by simp; omega, by simpa using hicond⟩
      · rw [if_neg hm] at hx
        obtain ⟨i, hxi, hilen, hicond⟩ := (ih (k + 1) x).mp hx
        exact ⟨i + 1, by omega, by simp; omega, by simpa using hicond⟩
    · rintro ⟨i, rfl, hilen, hicond⟩
      cases i with
      | zero =>
        have hm : m ∈ slotMods s := by simpa using hicond
        rw [if_pos hm]
        exact List.mem_cons_self _ _
      | succ i2 =>
        have hx2 : k + (i2 + 1) ∈ (List.enumFrom (k + 1) rest).filterMap
            (fun p => if m ∈ slotMods p.2 then some p.1 else none) := by
          refine (ih (k + 1) _).mpr ⟨i2, by omega, by simp at hilen; omega, ?_⟩
          simpa using hicond
        by_cases hm : m ∈ slotMods s
        · rw [if_pos hm]
          exact List.mem_cons_of_mem _ hx2
        · rw [if_neg hm]
          exact hx2

theorem sources_pairwise (m : Option String) :
    ∀ (slots : List String) (k : Nat),
      ((List.enumFrom k slots).filterMap
        (fun p => if m ∈ slotMods p.2 then some p.1 else none)).Pairwise (· < ·) := by
  intro slots
  induction slots with
  | nil => intro k; simp
  | cons s rest ih =>
    intro k
    rw [show List.enumFrom k (s :: rest) = (k, s) :: List.enumFrom (k + 1) rest
      from rfl]
    simp only [List.filterMap_cons]
    by_cases hm : m ∈ slotMods s
    · rw [if_pos hm]
      refine List.Pairwise.cons ?_ (ih (k + 1))
      intro x hx
      have := sources_bound m rest (k + 1) x hx
      omega
    · rw [if_neg hm]
      exact ih (k + 1)

theorem hasSplitModifiers_iff_lookup (cs : List String) :
    hasSplitModifiers cs = true ↔
      ∃ m, 1 < (lookupSources m (buildModifierSources cs)).length := by
  unfold hasSplitModifiers
  rw [List.any_eq_true]
  constructor
  · rintro ⟨p, hp, hlen⟩
    refine ⟨p.1, ?_⟩
    rw [lookup_of_mem_nodup (buildModifierSources_keys_nodup cs)
      (by simpa using hp)]
    simpa using hlen
  · rintro ⟨m, hlen⟩
    have hne : lookupSources m (buildModifierSources cs) ≠ [] := by
      intro hh
      rw [hh] at hlen
      simp at hlen
    exact ⟨(m, lookupSources m (buildModifierSources cs)),
      mem_of_lookup_ne_nil hne, by simpa using hlen⟩

/-- C2 counterexample: two slots containing only unmodified base classes —
no non-null modifier occurs anywhere — yet `hasSplitModifiers` returns true,
because the source counts the `null` (no-modifier) key like any other. -/
theorem C2_counterexample_null_modifier_counts :
    hasSplitModifiers ["a", "b"] = true ∧
    slotMods "a" = [none] ∧ slotMods "b" = [none] := by decide

/-- C2 amended: `hasSplitModifiers` returns true iff some modifier key —
the `null` no-modifier key included — appears in the per-slot modifier
groupings of two or more distinct slots. -/
theorem C2_hasSplitModifiers_characterization :
    ∀ classStrings : List String,
      hasSplitModifiers classStrings = true ↔
      ∃ m i j, i < j ∧ j < classStrings.length ∧
        m ∈ slotMods (classStrings.getD i "") ∧
        m ∈ slotMods (classStrings.getD j "") := by
  intro cs
  rw [hasSplitModifiers_iff_lookup cs]
  have hbuild : ∀ m, lookupSources m (buildModifierSources cs) =
      (List.enumFrom 0 cs).filterMap
        (fun p => if m ∈ slotMods p.2 then some p.1 else none) := by
    intro m
    have h := lookupSources_outerFold cs 0 [] m (by simp [lookupSources])
    simpa [lookupSources] using h
  constructor
  · rintro ⟨m, hlen⟩
    rw [hbuild m] at hlen
    rcases hS : (List.enumFrom 0 cs).filterMap
        (fun p => if m ∈ slotMods p.2 then some p.1 else none) with _ | ⟨a, tail⟩
    · rw [hS] at hlen; simp at hlen
    · rcases htail : tail with _ | ⟨b, tail2⟩
      · rw [hS, htail] at hlen; simp at hlen
      · subst htail
        have hpw := sources_pairwise m cs 0
        rw [hS] at hpw
        have hab : a < b := (List.pairwise_cons.mp hpw).1 b (List.mem_cons_self _ _)
        have hma : a ∈ (List.enumFrom 0 cs).filterMap
            (fun p => if m ∈ slotMods p.2 then some p.1 else none) := by
          rw [hS]; exact List.mem_cons_self _ _
        have hmb : b ∈ (List.enumFrom 0 cs).filterMap
            (fun p => if m ∈ slotMods p.2 then some p.1 else none) := by
          rw [hS]; exact List.mem_cons_of_mem _ (List.mem_cons_self _ _)
        obtain ⟨i, hai, hilen, hicond⟩ := (sources_mem m cs 0 a).mp hma
        obtain ⟨j, haj, hjlen, hjcond⟩ := (sources_mem m cs 0 b).mp hmb
        refine ⟨m, i, j, by omega, hjlen, hicond, hjcond⟩
  · rintro ⟨m, i, j, hij, hjlen, hicond, hjcond⟩
    refine ⟨m, ?_⟩
    rw [hbuild m]
    have hi : i ∈ (List.enumFrom 0 cs).filterMap
        (fun p => if m ∈ slotMods p.2 then some p.1 else none) :=
      (sources_mem m cs 0 i).mpr ⟨i, by omega, by omega, hicond⟩
    have hj : j ∈ (List.enumFrom 0 cs).filterMap
        (fun p => if m ∈ slotMods p.2 then some p.1 else none) :=
      (sources_mem m cs 0 j).mpr ⟨j, by omega, hjlen, hjcond⟩
    rcases hS : (List.enumFrom 0 cs).filterMap
        (fun p => if m ∈ slotMods p.2 then some p.1 else none) with _ | ⟨a, tail⟩
    · rw [hS] at hi; cases hi
    · rcases tail with _ | ⟨b, tail2⟩
      · rw [hS] at hi hj
        have h1 : i = a := List.mem_singleton.mp hi
        have h2 : j = a := List.mem_singleton.mp hj
        omega
      · rw [hS]
        simp

/-! ## Set semantics of the non-destructiveness verifier (C10) -/

theorem mem_setAdd {s : List String} {x y : String} :
    x ∈ setAdd s y ↔ x ∈ s ∨ x = y := by
  unfold setAdd
  by_cases h : y ∈ s
  · rw [if_pos h]
    constructor
    · exact Or.inl
    · rintro (h1 | rfl)
      · exact h1
      · exact h
  · rw [if_neg h]
    simp

theorem mem_parsedFold (ps : List ParsedClass) :
    ∀ (s : List String) (x : String),
      x ∈ ps.foldl (fun s p => setAdd s p.full) s ↔
        x ∈ s ∨ ∃ p ∈ ps, x = p.full := by
  induction ps with
  | nil =>
    intro s x
    simp
  | cons p rest ih =>
    intro s x
    simp only [List.foldl_cons]
    rw [ih (setAdd s p.full) x]
    constructor
    · rintro (hx | hx)
      · rcases mem_setAdd.mp hx with hx | hx
        · exact Or.inl hx
        · exact Or.inr ⟨p, List.mem_cons_self p rest, hx⟩
      · obtain ⟨q, hq, hxq⟩ := hx
        exact Or.inr ⟨q, List.mem_cons_of_mem p hq, hxq⟩
    · rintro (hx | ⟨q, hq, hxq⟩)
      · exact Or.inl (mem_setAdd.mpr (Or.inl hx))
      · rcases List.mem_cons.mp hq with hq | hq
        · subst hq
          exact Or.inl (mem_setAdd.mpr (Or.inr hxq))
        · exact Or.inr ⟨q, hq, hxq⟩

theorem mem_classSetFold (l : List String) :
    ∀ (s : List String) (x : String),
      x ∈ l.foldl (fun s cs =>
          (parseClasses cs).foldl (fun s p => setAdd s p.full) s) s ↔
        x ∈ s ∨ ∃ cs ∈ l, ∃ p ∈ parseClasses cs, x = p.full := by
  induction l with
  | nil =>
    intro s x
    simp
  | cons cs rest ih =>
    intro s x
    simp only [List.foldl_cons]
    rw [ih _ x]
    constructor
    · rintro (hx | hx)
      · rcases (mem_parsedFold (parseClasses cs) s x).mp hx with hx | hx
        · exact Or.inl hx
        · exact Or.inr ⟨cs, List.mem_cons_self cs rest, hx⟩
      · obtain ⟨cs2, hcs2, hp⟩ := hx
        exact Or.inr ⟨cs2, List.mem_cons_of_mem cs hcs2, hp⟩
    · rintro (hx | ⟨cs2, hcs2, hp⟩)
      · exact Or.inl ((mem_parsedFold (parseClasses cs) s x).mpr (Or.inl hx))
      · rcases List.mem_cons.mp hcs2 with hcs2 | hcs2
        · subst hcs2
          exact Or.inl ((mem_parsedFold (parseClasses cs2) s x).mpr (Or.inr hp))
        · exact Or.inr ⟨cs2, hcs2, hp⟩

theorem mem_flatten_names (l : List String) (x : String) :
    x ∈ (l.map (fun s => (parseClasses s).map ParsedClass.full)).flatten ↔
      ∃ cs ∈ l, ∃ p ∈ parseClasses cs, x = p.full := by
  simp only [List.mem_flatten, List.mem_map]
  constructor
  · rintro ⟨li, ⟨cs, hcs, rfl⟩, hx⟩
    obtain ⟨p, hp, hpx⟩ := List.mem_map.mp hx
    exact ⟨cs, hcs, p, hp, hpx.symm⟩
  · rintro ⟨cs, hcs, p, hp, rfl⟩
    exact ⟨(parseClasses cs).map ParsedClass.full, ⟨cs, hcs, rfl⟩,
      List.mem_map_of_mem ParsedClass.full hp⟩

/-- C10: `verifyFixNonDestructive` compares sets of distinct class names —
it returns true exactly when the set of parsed class names of the input
equals the set of class names in the quoted fragments of the output, so a
class occurring twice in the input and once in the output still verifies
(duplication is invisible to it). -/
theorem C10_verifyFixNonDestructive_set_semantics :
    (∀ (inputClasses : List String) (outputCode : String),
      verifyFixNonDestructive inputClasses outputCode = true ↔
      ∀ t : String,
        (t ∈ (inputClasses.map
            (fun s => (parseClasses s).map ParsedClass.full)).flatten ↔
         t ∈ ((extractQuoted outputCode).map
            (fun s => (parseClasses s).map ParsedClass.full)).flatten)) ∧
    verifyFixNonDestructive ["a", "a"] "x(\"a\")" = true := by
  constructor
  · intro inputClasses outputCode
    unfold verifyFixNonDestructive
    rw [Bool.and_eq_true, List.all_eq_true, List.all_eq_true]
    simp only [decide_eq_true_eq]
    constructor
    · rintro ⟨h1, h2⟩ t
      rw [mem_flatten_names, mem_flatten_names]
      constructor
      · rintro ht
        have htin : t ∈ inputClasses.foldl (fun s cs =>
            (parseClasses cs).foldl (fun s p => setAdd s p.full) s) [] :=
          (mem_classSetFold inputClasses [] t).mpr (Or.inr ht)
        have := h1 t htin
        rcases (mem_classSetFold (extractQuoted outputCode) [] t).mp this with
          hc | hc
        · cases hc
        · exact hc
      · rintro ht
        have htout : t ∈ (extractQuoted outputCode).foldl (fun s cs =>
            (parseClasses cs).foldl (fun s p => setAdd s p.full) s) [] :=
          (mem_classSetFold (extractQuoted outputCode) [] t).mpr (Or.inr ht)
        have := h2 t htout
        rcases (mem_classSetFold inputClasses [] t).mp this with hc | hc
        · cases hc
        · exact hc
    · intro h
      constructor
      · intro t ht
        rcases (mem_classSetFold inputClasses [] t).mp ht with hc | hc
        · cases hc
        · refine (mem_classSetFold (extractQuoted outputCode) [] t).mpr
            (Or.inr ?_)
          have := (h t).mp ((mem_flatten_names inputClasses t).mpr hc)
          exact (mem_flatten_names (extractQuoted outputCode) t).mp this
      · intro t ht
        rcases (mem_classSetFold (extractQuoted outputCode) [] t).mp ht with
          hc | hc
        · cases hc
        · refine (mem_classSetFold inputClasses [] t).mpr (Or.inr ?_)
          have := (h t).mpr
            ((mem_flatten_names (extractQuoted outputCode) t).mpr hc)
          exact (mem_flatten_names inputClasses t).mp this
  · decide
